import Mathlib

/-!
Verification development for the ts-morph refactoring engine of this
repository (rename planner, reference discovery, module-specifier rewriter,
dry-run/commit controller, symbol rename, reference listing).

Shallow embedding conventions:
* Absolute file-system paths are modelled as lists of path components
  (`Path := List String`); the TypeScript sources call `path.resolve` on
  every user-supplied path before using it, so the embedded operations take
  already-absolute, already-normalised component lists.  `path.relative` and
  `path.resolve(base, rel)` on such paths are `listRelative` and
  `resolveApply` below.
* The ts-morph `Project` is a list of modules; `project.getSourceFile(p)`
  is a path lookup and `project.getDirectory(p)` holds exactly when `p` is
  a strict ancestor of some module path (ts-morph materialises a directory
  for every ancestor of a source file it owns).
* Import/export declarations are `Edge` records carrying their source span,
  current specifier text, statically resolved target (absent for edges the
  front end cannot resolve) and an oracle bit `setFails` saying whether the
  front end's `setModuleSpecifier` edit primitive would throw on them.
* Thrown `Error`s become `Except` values; logging, `AbortSignal` checks and
  `performance.now` timing are side-effect free and are not modelled.
-/

namespace TsMorph

abbrev Path := List String

/-- One module of the project: its absolute path, its import/export edges
and the ts-morph dirty bit (negation of `isSaved`). -/
structure Edge where
  pos : Nat
  stop : Nat
  specifier : Option String
  resolvedTarget : Option Path
  setFails : Bool
deriving DecidableEq, Repr

structure Module where
  path : Path
  edges : List Edge
  dirty : Bool
deriving DecidableEq, Repr

/-- The ts-morph project: owned modules plus the keys of the tsconfig
`paths` map (used by `checkIsPathAlias`). -/
structure Project where
  modules : List Module
  tsConfigKeys : List String
deriving DecidableEq, Repr

/-- Bool test that `p` is an ancestor-or-equal component prefix of `q`. -/
def ancestorOrSelf : Path → Path → Bool
  | [], _ => true
  | _ :: _, [] => false
  | x :: xs, y :: ys => x == y && ancestorOrSelf xs ys

/-- Bool test that `p` is a strict ancestor of `q`. -/
def strictAncestor (p q : Path) : Bool :=
  (p != q) && ancestorOrSelf p q

/-- `project.getSourceFile(p)` as a Bool. -/
def hasSourceFile (proj : Project) (p : Path) : Bool :=
  proj.modules.any (fun m => m.path == p)

/-- `project.getSourceFile(p)` returning the index of the module (the
module handle). -/
def getSourceFileIdx (proj : Project) (p : Path) : Option Nat :=
  proj.modules.findIdx? (fun m => m.path == p)

/-- `project.getDirectory(p)`: ts-morph owns a directory exactly when it is
a strict ancestor of some owned source file. -/
def hasDirectory (proj : Project) (p : Path) : Bool :=
  proj.modules.any (fun m => strictAncestor p m.path)

/-- `directory.getDescendantSourceFiles()` with module handles, in project
enumeration order. -/
def descendantsWithIdx (proj : Project) (p : Path) : List (Nat × Module) :=
  proj.modules.enum.filter (fun im => strictAncestor p im.2.path)

/-- `path.relative` between two absolute, normalised component paths:
strip the longest common prefix, go up once per remaining base component,
then down the remaining target components. -/
def listRelative : Path → Path → Path
  | [], t => t
  | b, [] => b.map (fun _ => "..")
  | x :: xs, y :: ys =>
    if x = y then listRelative xs ys
    else (x :: xs).map (fun _ => "..") ++ (y :: ys)

/-- `path.resolve(base, rel)` for an absolute `base`: interpret `..` and
`.` components of `rel` against `base`. -/
def resolveApply : Path → Path → Path
  | base, [] => base
  | base, c :: rest =>
    if c = ".." then resolveApply base.dropLast rest
    else if c = "." then resolveApply base rest
    else resolveApply (base ++ [c]) rest

/-- `path.dirname` of a component path. -/
def dirname (p : Path) : Path := p.dropLast

/- ------------------------------------------------------------------ -/
/- Rename Operation Planner (prepare-renames.ts)                      -/
/- ------------------------------------------------------------------ -/

structure PathMapping where
  oldPath : Path
  newPath : Path
deriving DecidableEq, Repr

/-- `RenameOperation`: the planner's output.  `sourceIdx` is the ts-morph
`SourceFile` handle (position of the module in the project). -/
structure RenameOperation where
  sourceIdx : Nat
  oldPath : Path
  newPath : Path
deriving DecidableEq, Repr

/-- The planner's error taxonomy (each thrown `Error` message of
prepare-renames.ts becomes one constructor). -/
inductive PlanError where
  | duplicateTarget : Path → PlanError
  | destinationExistsFile : Path → PlanError
  | destinationExistsDir : Path → PlanError
  | sourceNotFound : Path → PlanError
deriving DecidableEq, Repr

/-- `checkDestinationExists`: fail when the destination already names an
owned module or directory. -/
def checkDestinationExists (proj : Project) (p : Path) : Except PlanError Unit :=
  if hasSourceFile proj p then .error (.destinationExistsFile p)
  else if hasDirectory proj p then .error (.destinationExistsDir p)
  else .ok ()

/-- The operations one accepted mapping expands to: a single operation for
a module source, one operation per descendant module for a directory
source, each descendant sent to
`path.resolve(newDirPath, path.relative(oldDirPath, modulePath))`. -/
def opsForMapping (proj : Project) (r : PathMapping) : List RenameOperation :=
  match getSourceFileIdx proj r.oldPath with
  | some i => [⟨i, r.oldPath, r.newPath⟩]
  | none =>
    (descendantsWithIdx proj r.oldPath).map (fun im =>
      ⟨im.1, im.2.path, resolveApply r.newPath (listRelative r.oldPath im.2.path)⟩)

/-- Main loop of `prepareRenames`, carrying the `uniqueNewPaths` set and
the accumulated operations. -/
def prepareRenamesGo (proj : Project) :
    List PathMapping → List Path → List RenameOperation →
    Except PlanError (List RenameOperation)
  | [], _, acc => .ok acc
  | r :: rest, used, acc =>
    if used.contains r.newPath then .error (.duplicateTarget r.newPath)
    else
      match checkDestinationExists proj r.newPath with
      | .error e => .error e
      | .ok _ =>
        if (getSourceFileIdx proj r.oldPath).isSome ∨ hasDirectory proj r.oldPath then
          prepareRenamesGo proj rest (r.newPath :: used) (acc ++ opsForMapping proj r)
        else .error (.sourceNotFound r.oldPath)

/-- `prepareRenames(project, renames)`: expand every mapping, checking per
mapping (in input order) duplicate target, destination existence, source
resolution. -/
def prepareRenames (proj : Project) (renames : List PathMapping) :
    Except PlanError (List RenameOperation) :=
  prepareRenamesGo proj renames [] []

/- ------------------------------------------------------------------ -/
/- Path Resolver (calculate-relative-path.ts)                         -/
/- ------------------------------------------------------------------ -/

/-- Split a character list on a separator character (the char-level body
of `String.splitOn` for a one-character separator, stated structurally so
that it evaluates by kernel reduction). -/
def splitChars (sep : Char) : List Char → List (List Char)
  | [] => [[]]
  | x :: xs =>
    if x = sep then [] :: splitChars sep xs
    else
      match splitChars sep xs with
      | [] => [[x]]
      | h :: t => (x :: h) :: t

/-- `String.splitOn` for a one-character separator. -/
def splitOnChar (s : String) (sep : Char) : List String :=
  (splitChars sep s.data).map (fun l => ⟨l⟩)

/-- `String.dropRight` (drop characters from the end), stated on the
character list. -/
def strDropRight (s : String) (n : Nat) : String :=
  ⟨s.data.take (s.data.length - n)⟩

/-- `node:path`'s `extname` applied to a basename (the part after the last
slash): everything from the last dot, unless the dot is the first
character or the basename is the bare `..`. -/
def extnameBase (base : String) : String :=
  if base = ".." then ""
  else
    let parts := splitOnChar base '.'
    if 2 ≤ parts.length ∧ ¬(parts.length = 2 ∧ parts.headD "" = "") then
      "." ++ parts.getLastD ""
    else ""

/-- `path.extname` on a whole specifier or path string. -/
def extname (s : String) : String :=
  extnameBase ((splitOnChar s '/').getLastD "")

def DEFAULT_EXTENSIONS_TO_REMOVE : List String :=
  [".ts", ".tsx", ".js", ".jsx", ".json", ".mjs", ".cjs"]

/-- The `removeExtensions` option of `calculateRelativePath`: either a
boolean (`true` selects the default list, `false` disables stripping) or
an explicit list of extensions. -/
inductive RemoveExtensions where
  | asBool : Bool → RemoveExtensions
  | asList : List String → RemoveExtensions
deriving DecidableEq, Repr

/-- A basename accepted by the `index(\.(ts|tsx|js|jsx|json))?` tail of the
index-simplification regex. -/
def isIndexBase (s : String) : Bool :=
  s == "index" || s == "index.ts" || s == "index.tsx" || s == "index.js" ||
    s == "index.jsx" || s == "index.json"

/-- The regex `^(\.\.?(\/\.\.)*)\/index(\.(ts|tsx|js|jsx|json))?$` of
calculate-relative-path.ts, applied to the formatted path seen as its
slash-separated components; returns the first capture group on a match.
A match is a head component `.` or `..`, zero or more `..` components, and
an index basename. -/
def indexRegexGroup (comps : List String) : Option String :=
  match comps with
  | [] => none
  | c0 :: rest =>
    if (c0 == "." || c0 == "..") && !rest.isEmpty &&
        rest.dropLast.all (fun c => c == "..") && isIndexBase (rest.getLastD "") then
      some (String.intercalate "/" (c0 :: rest.dropLast))
    else none

/-- The source tests `!formatted.startsWith(".") && !formatted.startsWith("/")`
on the joined relative path.  On components: the joined string's first
character is the head component's first character, or `/` when the head
component is empty and further components follow; the empty joined string
starts with neither. -/
def needsDotSlash (rel : List String) : Bool :=
  match rel with
  | [] => true
  | c0 :: rest =>
    match c0.data with
    | [] => rest.isEmpty
    | c :: _ => !(c == '.' || c == '/')

/-- Prepend the `./` component exactly when the source would prepend
`"./"` to the joined string. -/
def withDotSlash (rel : List String) : List String :=
  if needsDotSlash rel then "." :: rel else rel

/-- `calculateRelativePath(fromPath, toPath, options)`: relative path from
`fromPath`'s directory to `toPath` in POSIX form starting with `./` or
`../`, with index simplification and extension stripping.  The source
builds one string and runs `startsWith`, the index regex, `extname` and
`slice` on it; the embedding keeps the slash-separated components and
applies the equivalent component-level operations (path components never
contain a slash).  When the raw relative path is empty the source returns
the literal `./`. -/
def calculateRelativePath (fromPath toPath : Path) (simplifyIndex : Bool)
    (removeExts : RemoveExtensions) : String :=
  let rel := listRelative (dirname fromPath) toPath
  if rel.isEmpty then "./"
  else
    let comps := withDotSlash rel
    let simplified :=
      if simplifyIndex && !(removeExts == .asBool false) then indexRegexGroup comps
      else none
    match simplified with
    | some g => g
    | none =>
      let base := comps.getLastD ""
      let ext := extnameBase base
      let stripList :=
        match removeExts with
        | .asBool true => DEFAULT_EXTENSIONS_TO_REMOVE
        | .asBool false => []
        | .asList l => l
      if stripList.contains ext then
        -- JS `formatted.slice(0, -ext.length)` collapses to the empty
        -- string when ext is empty (slice(0, -0) = slice(0, 0)).
        if ext.isEmpty then ""
        else String.intercalate "/" (comps.dropLast ++ [strDropRight base ext.length])
      else String.intercalate "/" comps

/- ------------------------------------------------------------------ -/
/- Module Specifier Rewriter (update-module-specifiers.ts)            -/
/- ------------------------------------------------------------------ -/

def PRESERVE_EXTENSIONS : List String := [".js", ".jsx", ".json", ".mjs", ".cjs"]

/-- The `wasIndexSimplified` test of update-module-specifiers.ts: the
regex `(\/|\/[^/.]+)$` (the specifier ends at a directory boundary: a
trailing slash, or a final slash-separated segment containing no dot)
or `!path.extname(text)` (the specifier has no extension). -/
def wasIndexSimplifiedFn (text : String) : Bool :=
  (let segs := splitOnChar text '/'
   2 ≤ segs.length && (segs.getLastD "" == "" || !(segs.getLastD "").data.contains '.'))
  || extname text == ""

/-- Lines 63-113 of update-module-specifiers.ts: the new specifier for one
declaration, given the (possibly renamed) owner path and target path and
the original specifier text.  Both the alias branch and the non-alias
branch call `calculateRelativePath` with the same options (alias
recomputation is an unimplemented TODO in the source). -/
def computeNewSpecifier (newReferencingFilePath newResolvedPath : Path)
    (originalSpecifierText : String) (wasPathAlias : Bool) : String :=
  let wasIndexSimplified := wasIndexSimplifiedFn originalSpecifierText
  if wasPathAlias then
    calculateRelativePath newReferencingFilePath newResolvedPath wasIndexSimplified
      (.asBool (!PRESERVE_EXTENSIONS.contains (extname originalSpecifierText)))
  else
    calculateRelativePath newReferencingFilePath newResolvedPath wasIndexSimplified
      (.asBool (!PRESERVE_EXTENSIONS.contains (extname originalSpecifierText)))

/-- The `DeclarationToUpdate` records of types.ts: the declaration handle
(module index and edge index) plus the data captured at discovery time. -/
structure DeclarationToUpdate where
  moduleIdx : Nat
  edgeIdx : Nat
  resolvedPath : Path
  referencingFilePath : Path
  originalSpecifierText : String
  wasPathAlias : Bool
deriving DecidableEq, Repr

/-- Look a declaration handle up in the project. -/
def getEdge (proj : Project) (i j : Nat) : Option Edge :=
  proj.modules[i]?.bind (fun m => m.edges[j]?)

/-- `declaration.setModuleSpecifier(s)`: replace the edge's specifier and
mark its module unsaved. -/
def setEdgeSpec (proj : Project) (i j : Nat) (s : String) : Project :=
  match proj.modules[i]? with
  | none => proj
  | some m =>
    match m.edges[j]? with
    | none => proj
    | some e =>
      { proj with
        modules := proj.modules.set i
          { m with edges := m.edges.set j { e with specifier := some s }, dirty := true } }

/-- `findNewPath`: the `newPath` of the first rename operation whose
`oldPath` matches. -/
def findNewPath (p : Path) (ops : List RenameOperation) : Option Path :=
  (ops.find? (fun op => op.oldPath == p)).map (fun op => op.newPath)

structure UpdateState where
  proj : Project
  updatedCount : Nat
  skippedCount : Nat
deriving DecidableEq, Repr

/-- One iteration of the `updateModuleSpecifiers` loop: skip when the
declaration has no module specifier, skip with a warning when the resolved
target has no rename operation, otherwise compute the new specifier and
try to set it, counting a thrown `setModuleSpecifier` as a skip. -/
def updateOne (ops : List RenameOperation) (st : UpdateState)
    (d : DeclarationToUpdate) : UpdateState :=
  match getEdge st.proj d.moduleIdx d.edgeIdx with
  | none => { st with skippedCount := st.skippedCount + 1 }
  | some e =>
    match e.specifier with
    | none => { st with skippedCount := st.skippedCount + 1 }
    | some _ =>
      match findNewPath d.resolvedPath ops with
      | none => { st with skippedCount := st.skippedCount + 1 }
      | some newResolvedPath =>
        let newReferencingFilePath :=
          (findNewPath d.referencingFilePath ops).getD d.referencingFilePath
        let newSpec := computeNewSpecifier newReferencingFilePath newResolvedPath
          d.originalSpecifierText d.wasPathAlias
        if e.setFails then { st with skippedCount := st.skippedCount + 1 }
        else
          { proj := setEdgeSpec st.proj d.moduleIdx d.edgeIdx newSpec,
            updatedCount := st.updatedCount + 1,
            skippedCount := st.skippedCount }

/-- `updateModuleSpecifiers(allDeclarationsToUpdate, renameOperations)`. -/
def updateModuleSpecifiers (proj : Project) (decls : List DeclarationToUpdate)
    (ops : List RenameOperation) : UpdateState :=
  decls.foldl (updateOne ops) ⟨proj, 0, 0⟩

/- ------------------------------------------------------------------ -/
/- Reference discovery (findAllDeclarationsToUpdate, part of           -/
/- rename-file-system-entry.ts)                                        -/
/- ------------------------------------------------------------------ -/

/-- `checkIsPathAlias`: the specifier starts with some tsconfig `paths`
key, a single trailing `*` stripped from the key. -/
def checkIsPathAlias (specifier : String) (tsConfigKeys : List String) : Bool :=
  tsConfigKeys.any (fun k =>
    specifier.startsWith (if k.endsWith "*" then strDropRight k 1 else k))

/-- Modelled from the spec: the per-operation discovery helper
`findDeclarationsForRenameOperation` (its source file is not in the
repository snapshot; only its caller is).  Following section 4.2, it asks
the front end for the edges whose statically resolved target equals the
operation's `oldPath`, in project enumeration order, returning declaration
handles. -/
def findDeclarationsForRenameOperation (proj : Project) (op : RenameOperation) :
    List (Nat × Nat) :=
  (proj.modules.enum.map (fun im =>
    (im.2.edges.enum.filterMap (fun je =>
      if je.2.resolvedTarget == some op.oldPath then some (im.1, je.1) else none)))).flatten

/-- State of the discovery loop: keys already seen (referencing file path,
node start, node end — the `mapKey`) and accumulated declarations in
insertion order. -/
structure DiscoveryState where
  seen : List (Path × Nat × Nat)
  acc : List DeclarationToUpdate
deriving Repr

/-- Body of the inner discovery loop of `findAllDeclarationsToUpdate`:
dedup on the map key, drop declarations with an empty or missing
specifier, record whether the specifier is a path alias, and skip
declarations that do not resolve directly to the operation's old path. -/
def collectDeclaration (proj : Project) (op : RenameOperation)
    (st : DiscoveryState) (h : Nat × Nat) : DiscoveryState :=
  match proj.modules[h.1]? with
  | none => st
  | some m =>
    match m.edges[h.2]? with
    | none => st
    | some e =>
      let key : Path × Nat × Nat := (m.path, e.pos, e.stop)
      if st.seen.contains key then st
      else
        match e.specifier with
        | none => st
        | some s =>
          if s = "" then st
          else
            let wasPathAlias := checkIsPathAlias s proj.tsConfigKeys
            if e.resolvedTarget == some op.oldPath then
              { seen := key :: st.seen,
                acc := st.acc ++ [⟨h.1, h.2, op.oldPath, m.path, s, wasPathAlias⟩] }
            else st

/-- `findAllDeclarationsToUpdate(project, renameOperations)`: for every
rename operation collect the referencing declarations, deduplicated across
the whole batch by `(referencing file, node start, node end)`, in
operation order then discovery order. -/
def findAllDeclarationsToUpdate (proj : Project) (ops : List RenameOperation) :
    List DeclarationToUpdate :=
  (ops.foldl (fun st op =>
    (findDeclarationsForRenameOperation proj op).foldl (collectDeclaration proj op) st)
    ⟨[], []⟩).acc

/- ------------------------------------------------------------------ -/
/- Moves and persistence (move-file-system-entries.ts,                 -/
/- ts-morph-project.ts, rename-file-system-entry.ts)                   -/
/- ------------------------------------------------------------------ -/

/-- One `sourceFile.move`: the source computes a move target relative to
the planned old path's directory and ts-morph applies it against the
module's current directory, marking the module unsaved. -/
def moveOne (proj : Project) (op : RenameOperation) : Project :=
  match proj.modules[op.sourceIdx]? with
  | none => proj
  | some m =>
    let target := resolveApply (dirname m.path) (listRelative (dirname op.oldPath) op.newPath)
    { proj with modules := proj.modules.set op.sourceIdx { m with path := target, dirty := true } }

/-- `moveFileSystemEntries(renameOperations)`. -/
def moveFileSystemEntries (proj : Project) (ops : List RenameOperation) : Project :=
  ops.foldl moveOne proj

/-- On-disk state: a map from path to stored module content (its edges).
Deletion of vacated old paths on save is internal ts-morph bookkeeping and
is not needed by the claims. -/
abbrev Storage := List (Path × List Edge)

def storageWrite (st : Storage) (p : Path) (c : List Edge) : Storage :=
  (p, c) :: st.filter (fun pc => pc.1 ≠ p)

/-- `getChangedFiles(project)`: the modules whose content differs from
their last-saved state. -/
def getChangedFiles (proj : Project) : List Module :=
  proj.modules.filter (fun m => m.dirty)

/-- `saveProjectChanges` / `project.save()`: write every unsaved module to
its current path and mark it saved; returns the written paths. -/
def saveProject (proj : Project) (storage : Storage) :
    Project × Storage × List Path :=
  ( { proj with modules := proj.modules.map (fun m => { m with dirty := false }) },
    (getChangedFiles proj).foldl (fun st m => storageWrite st m.path m.edges) storage,
    (getChangedFiles proj).map (fun m => m.path) )

/-- Result of `renameFileSystemEntry`: the thrown error or changed-file
list, together with the final in-memory project, the final storage, and
the list of paths the call actually persisted. -/
structure FsResult where
  result : Except PlanError (List Path)
  proj : Project
  storage : Storage
  written : List Path
deriving Repr

/-- `renameFileSystemEntry({project, renames, dryRun})`: plan, discover,
move, rewrite specifiers, then report the changed files — persisting them
first unless `dryRun` is set or nothing changed. -/
def renameFileSystemEntry (proj : Project) (storage : Storage)
    (renames : List PathMapping) (dryRun : Bool) : FsResult :=
  match prepareRenames proj renames with
  | .error e => ⟨.error e, proj, storage, []⟩
  | .ok ops =>
    let decls := findAllDeclarationsToUpdate proj ops
    let proj1 := moveFileSystemEntries proj ops
    let proj2 := (updateModuleSpecifiers proj1 decls ops).proj
    let changed := (getChangedFiles proj2).map (fun m => m.path)
    if !dryRun && !changed.isEmpty then
      let saved := saveProject proj2 storage
      ⟨.ok changed, saved.1, saved.2.1, saved.2.2⟩
    else ⟨.ok changed, proj2, storage, []⟩

/- ------------------------------------------------------------------ -/
/- Symbol rename (rename-symbol.ts)                                    -/
/- ------------------------------------------------------------------ -/

/-- A token-level AST node of a source file: full span `[pos, stop)`,
trivia-free start `start` (so `pos ≤ start`), whether the node is an
`Identifier`, and its text. -/
structure TokenNode where
  pos : Nat
  stop : Nat
  start : Nat
  isIdent : Bool
  text : String
deriving DecidableEq, Repr

/-- A source file as seen by rename-symbol.ts: its path, its text split
into lines, its token nodes and the ts-morph dirty bit. -/
structure SymFile where
  path : String
  lines : List String
  tokens : List TokenNode
  dirty : Bool
deriving DecidableEq, Repr

structure SymProject where
  files : List SymFile
deriving DecidableEq, Repr

/-- The errors rename-symbol.ts throws before renaming anything. -/
inductive RenameSymbolError where
  | fileNotFound
  | positionOutOfRange
  | nodeNotFound
  | notAnIdentifier
  | symbolNameMismatch
deriving DecidableEq, Repr

/-- `compilerNode.getPositionOfLineAndCharacter(line-1, column-1)` for a
1-based position: `none` models the TypeScript debug-assertion throw for a
position outside the file. -/
def offsetOfPosition (lines : List String) (line column : Nat) : Option Nat :=
  if 1 ≤ line ∧ line ≤ lines.length ∧ 1 ≤ column ∧
      column - 1 ≤ (lines[line - 1]?.getD "").length then
    some ((lines.take (line - 1)).foldl (fun a s => a + s.length + 1) 0 + (column - 1))
  else none

/-- `sourceFile.getDescendantAtPos(offset)` over the flat token list: the
first token whose full span contains the offset. -/
def descendantAtPos (tokens : List TokenNode) (off : Nat) : Option TokenNode :=
  tokens.find? (fun t => decide (t.pos ≤ off) && decide (off < t.stop))

/-- `findIdentifierNode`: resolve path, position and node, and validate
that the node is an identifier whose trivia-free span covers the offset. -/
def findIdentifierNode (proj : SymProject) (targetFilePath : String)
    (line column : Nat) : Except RenameSymbolError TokenNode :=
  match proj.files.find? (fun f => f.path == targetFilePath) with
  | none => .error .fileNotFound
  | some f =>
    match offsetOfPosition f.lines line column with
    | none => .error .positionOutOfRange
    | some off =>
      match descendantAtPos f.tokens off with
      | none => .error .nodeNotFound
      | some t =>
        if t.isIdent && decide (t.start ≤ off) then .ok t
        else .error .notAnIdentifier

/-- Modelled external front-end primitive `identifier.rename(newName)` of
the spec's section 6: an in-place textual rename of the declaration and
all its references; files containing a renamed token become unsaved. -/
def renameAllIdentifiers (proj : SymProject) (oldName newName : String) : SymProject :=
  ⟨proj.files.map (fun f =>
    let changed := f.tokens.any (fun t => t.isIdent && t.text == oldName)
    { f with
      tokens := f.tokens.map (fun t =>
        if t.isIdent && t.text == oldName then { t with text := newName } else t),
      dirty := f.dirty || changed })⟩

structure RenameSymbolOutcome where
  result : Except RenameSymbolError (List String)
  project : SymProject
  savedPaths : List String
deriving Repr

/-- `renameSymbol({targetFilePath, position, symbolName, newName, dryRun})`:
validate, rename, report the changed files, and save them unless dry-run.
A validation failure returns before any mutation or save. -/
def renameSymbol (proj : SymProject) (targetFilePath : String)
    (line column : Nat) (symbolName newName : String) (dryRun : Bool) :
    RenameSymbolOutcome :=
  match findIdentifierNode proj targetFilePath line column with
  | .error e => ⟨.error e, proj, []⟩
  | .ok t =>
    if t.text == symbolName then
      let proj1 := renameAllIdentifiers proj t.text newName
      let changed := (proj1.files.filter (fun f => f.dirty)).map (fun f => f.path)
      if dryRun then ⟨.ok changed, proj1, []⟩
      else
        ⟨.ok changed,
          ⟨proj1.files.map (fun f => { f with dirty := false })⟩,
          changed⟩
    else ⟨.error .symbolNameMismatch, proj, []⟩

/- ------------------------------------------------------------------ -/
/- Reference listing (find-references.ts)                              -/
/- ------------------------------------------------------------------ -/

/-- A reference or definition node as reported by the front end, with its
file path and 1-based line/column derived from `getLineAndColumnAtPos`
and the text of its line. -/
structure RefNode where
  filePath : String
  line : Nat
  column : Nat
  lineText : String
deriving DecidableEq, Repr

structure ReferenceLocation where
  filePath : String
  line : Nat
  column : Nat
  text : String
deriving DecidableEq, Repr

/-- JS `String.prototype.trim`: drop whitespace from both ends (stated on
the character list so that it evaluates by kernel reduction). -/
def trimString (s : String) : String :=
  ⟨((s.data.dropWhile (fun c => c.isWhitespace)).reverse.dropWhile
      (fun c => c.isWhitespace)).reverse⟩

def toReferenceLocation (n : RefNode) : ReferenceLocation :=
  ⟨n.filePath, n.line, n.column, trimString n.lineText⟩

/-- The sort comparator of find-references.ts: `localeCompare` on file
paths (modelled as the string order), then ascending line number. -/
def refLe (a b : ReferenceLocation) : Bool :=
  if a.filePath = b.filePath then decide (a.line ≤ b.line)
  else decide (a.filePath < b.filePath)

/-- `findSymbolReferences` after front-end resolution: derive the
definition location from the first definition node, collect every
reference that does not sit at the definition's exact (path, line,
column), and sort by file path then line. -/
def findSymbolReferences (referenceNodes definitionNodes : List RefNode) :
    List ReferenceLocation × Option ReferenceLocation :=
  let definitionLocation := definitionNodes.head?.map toReferenceLocation
  let references := referenceNodes.filterMap (fun r =>
    match definitionLocation with
    | some d =>
      if r.filePath = d.filePath ∧ r.line = d.line ∧ r.column = d.column then none
      else some (toReferenceLocation r)
    | none => some (toReferenceLocation r))
  (references.mergeSort refLe, definitionLocation)

/- ------------------------------------------------------------------ -/
/- Theorems                                                            -/
/- ------------------------------------------------------------------ -/

/-- C5: for every discovered edge that was using a path alias, the
rewritten specifier equals exactly the specifier that the non-alias
(relative-path) branch computes for the same edge with the same inputs,
and processing such an edge behaves exactly as if it had not been marked
as an alias: aliased specifiers degrade to relative specifiers and are
never left stale. -/
theorem alias_branch_degrades_to_relative :
    (∀ (newRef newTgt : Path) (orig : String),
      computeNewSpecifier newRef newTgt orig true =
        computeNewSpecifier newRef newTgt orig false) ∧
    (∀ (ops : List RenameOperation) (st : UpdateState) (d : DeclarationToUpdate),
      updateOne ops st { d with wasPathAlias := true } =
        updateOne ops st { d with wasPathAlias := false }) := by
  have hc : ∀ (newRef newTgt : Path) (orig : String),
      computeNewSpecifier newRef newTgt orig true =
        computeNewSpecifier newRef newTgt orig false := by
    intro newRef newTgt orig
    rfl
  refine ⟨hc, ?_⟩
  intro ops st d
  unfold updateOne
  cases getEdge st.proj d.moduleIdx d.edgeIdx with
  | none => rfl
  | some e =>
    cases e.specifier with
    | none => rfl
    | some s =>
      cases findNewPath d.resolvedPath ops with
      | none => rfl
      | some nt =>
        simp only [hc]

/-- C8: with identical inputs and identical initial state, a dry run
reports the same changed-file list as a commit run, the dry run persists
nothing, and the commit run persists exactly the file list it reports. -/
theorem dryRun_commit_parity (proj : Project) (storage : Storage)
    (renames : List PathMapping) :
    (renameFileSystemEntry proj storage renames true).result =
      (renameFileSystemEntry proj storage renames false).result ∧
    (renameFileSystemEntry proj storage renames true).storage = storage ∧
    (renameFileSystemEntry proj storage renames true).written = [] ∧
    (renameFileSystemEntry proj storage renames false).written =
      (match (renameFileSystemEntry proj storage renames false).result with
        | .ok l => l
        | .error _ => []) := by
  unfold renameFileSystemEntry
  cases h : prepareRenames proj renames with
  | error e => simp
  | ok ops =>
    simp only [Bool.not_true, Bool.not_false, Bool.false_and, Bool.true_and,
      if_neg, Bool.false_eq_true, not_false_eq_true]
    by_cases hch :
        (((getChangedFiles
          ((updateModuleSpecifiers (moveFileSystemEntries proj ops)
            (findAllDeclarationsToUpdate proj ops) ops).proj)).map
              (fun m => m.path)).isEmpty = true)
    · simp [hch, List.isEmpty_iff.mp hch]
    · simp [hch, saveProject]

lemma refLe_trans (a b c : ReferenceLocation) :
    refLe a b = true → refLe b c = true → refLe a c = true := by
  intro hab hbc
  unfold refLe at hab hbc ⊢
  by_cases h1 : a.filePath = b.filePath <;> by_cases h2 : b.filePath = c.filePath
  · have h3 : a.filePath = c.filePath := h1.trans h2
    simp only [if_pos h1, if_pos h2, if_pos h3, decide_eq_true_eq] at *
    exact le_trans hab hbc
  · have h3 : ¬a.filePath = c.filePath := fun h => h2 (by rw [← h1]; exact h)
    simp only [if_pos h1, if_neg h2, if_neg h3, decide_eq_true_eq] at *
    rw [h1]; exact hbc
  · have h3 : ¬a.filePath = c.filePath := fun h => h1 (by rw [h, h2])
    simp only [if_neg h1, if_pos h2, if_neg h3, decide_eq_true_eq] at *
    rw [← h2]; exact hab
  · simp only [if_neg h1, if_neg h2, decide_eq_true_eq] at hab hbc
    have hac : a.filePath < c.filePath := lt_trans hab hbc
    have h3 : ¬a.filePath = c.filePath := ne_of_lt hac
    simp only [if_neg h3, decide_eq_true_eq]
    exact hac

lemma refLe_total (a b : ReferenceLocation) : (refLe a b || refLe b a) = true := by
  unfold refLe
  by_cases h1 : a.filePath = b.filePath
  · have h2 : b.filePath = a.filePath := h1.symm
    simp only [if_pos h1, if_pos h2, Bool.or_eq_true, decide_eq_true_eq]
    exact Nat.le_total a.line b.line
  · have h2 : ¬b.filePath = a.filePath := fun h => h1 h.symm
    simp only [if_neg h1, if_neg h2, Bool.or_eq_true, decide_eq_true_eq]
    rcases lt_or_gt_of_ne h1 with h | h
    · exact Or.inl h
    · exact Or.inr h

/-- C10: `findSymbolReferences` reports its references sorted by file path
(string order) then ascending line number, and no reported reference sits
at the reported definition's (file path, line, column). -/
theorem findSymbolReferences_sorted_and_defFree
    (referenceNodes definitionNodes : List RefNode) :
    (findSymbolReferences referenceNodes definitionNodes).1.Pairwise
      (fun a b => refLe a b = true) ∧
    (∀ r ∈ (findSymbolReferences referenceNodes definitionNodes).1,
      ∀ d, (findSymbolReferences referenceNodes definitionNodes).2 = some d →
        ¬(r.filePath = d.filePath ∧ r.line = d.line ∧ r.column = d.column)) := by
  constructor
  · exact List.sorted_mergeSort refLe_trans refLe_total _
  · intro r hr d hd
    unfold findSymbolReferences at hr hd
    simp only [List.mem_mergeSort, List.mem_filterMap] at hr
    obtain ⟨n, hn, hmatch⟩ := hr
    simp only at hd
    rw [hd] at hmatch
    by_cases heq : n.filePath = d.filePath ∧ n.line = d.line ∧ n.column = d.column
    · simp [heq] at hmatch
    · simp only [if_neg heq, Option.some.injEq] at hmatch
      intro hcontr
      apply heq
      rw [← hmatch] at hcontr
      exact hcontr

/-- Witness for C10 at a concrete front-end result: two references in
reverse path order plus a reference at the definition site. -/
theorem findSymbolReferences_sorted_and_defFree_witness :
    (findSymbolReferences
        [⟨"/z.ts", 3, 1, "use1"⟩, ⟨"/a.ts", 2, 5, "use2"⟩, ⟨"/a.ts", 1, 1, "def here"⟩]
        [⟨"/a.ts", 1, 1, "def here"⟩]).1.Pairwise (fun a b => refLe a b = true) ∧
    ¬((⟨"/a.ts", 2, 5, "use2"⟩ : ReferenceLocation).filePath = "/a.ts" ∧
      (⟨"/a.ts", 2, 5, "use2"⟩ : ReferenceLocation).line = 1 ∧
      (⟨"/a.ts", 2, 5, "use2"⟩ : ReferenceLocation).column = 1) := by
  have h := findSymbolReferences_sorted_and_defFree
    [⟨"/z.ts", 3, 1, "use1"⟩, ⟨"/a.ts", 2, 5, "use2"⟩, ⟨"/a.ts", 1, 1, "def here"⟩]
    [⟨"/a.ts", 1, 1, "def here"⟩]
  refine ⟨h.1, ?_⟩
  have hmem : (⟨"/a.ts", 2, 5, "use2"⟩ : ReferenceLocation) ∈
      (findSymbolReferences
        [⟨"/z.ts", 3, 1, "use1"⟩, ⟨"/a.ts", 2, 5, "use2"⟩, ⟨"/a.ts", 1, 1, "def here"⟩]
        [⟨"/a.ts", 1, 1, "def here"⟩]).1 := by
    unfold findSymbolReferences
    simp only [List.mem_mergeSort]
    decide
  have hd : (findSymbolReferences
        [⟨"/z.ts", 3, 1, "use1"⟩, ⟨"/a.ts", 2, 5, "use2"⟩, ⟨"/a.ts", 1, 1, "def here"⟩]
        [⟨"/a.ts", 1, 1, "def here"⟩]).2 =
      some ⟨"/a.ts", 1, 1, "def here"⟩ := by
    unfold findSymbolReferences
    decide
  exact h.2 ⟨"/a.ts", 2, 5, "use2"⟩ hmem ⟨"/a.ts", 1, 1, "def here"⟩ hd

/-- C9: `renameSymbol` fails with `positionOutOfRange` when the 1-based
position lies outside the target file, with `notAnIdentifier` when the
node covering the position is not an identifier (or the position sits in
its leading trivia), and with `symbolNameMismatch` when the identifier
text differs from the supplied symbol name; on every error the project is
unmutated and nothing is saved. -/
theorem renameSymbol_validation_aborts (proj : SymProject) (targetFilePath : String)
    (line column : Nat) (symbolName newName : String) (dryRun : Bool) :
    (∀ e, (renameSymbol proj targetFilePath line column symbolName newName dryRun).result
        = .error e →
      (renameSymbol proj targetFilePath line column symbolName newName dryRun).project
          = proj ∧
      (renameSymbol proj targetFilePath line column symbolName newName dryRun).savedPaths
          = []) ∧
    (∀ f, proj.files.find? (fun g => g.path == targetFilePath) = some f →
      offsetOfPosition f.lines line column = none →
      (renameSymbol proj targetFilePath line column symbolName newName dryRun).result
        = .error .positionOutOfRange) ∧
    (∀ f off t, proj.files.find? (fun g => g.path == targetFilePath) = some f →
      offsetOfPosition f.lines line column = some off →
      descendantAtPos f.tokens off = some t →
      ¬(t.isIdent = true ∧ t.start ≤ off) →
      (renameSymbol proj targetFilePath line column symbolName newName dryRun).result
        = .error .notAnIdentifier) ∧
    (∀ f off t, proj.files.find? (fun g => g.path == targetFilePath) = some f →
      offsetOfPosition f.lines line column = some off →
      descendantAtPos f.tokens off = some t →
      t.isIdent = true ∧ t.start ≤ off →
      t.text ≠ symbolName →
      (renameSymbol proj targetFilePath line column symbolName newName dryRun).result
        = .error .symbolNameMismatch) := by
  refine ⟨?_, ?_, ?_, ?_⟩
  · intro e he
    unfold renameSymbol at he ⊢
    cases hfi : findIdentifierNode proj targetFilePath line column with
    | error e2 => simp_all
    | ok t =>
      rw [hfi] at he
      by_cases ht : (t.text == symbolName) = true
      · simp only [ht, if_true] at he
        by_cases hdr : dryRun = true <;> simp [hdr] at he
      · simp only [ht] at he
        simp_all
  · intro f hf hoff
    unfold renameSymbol findIdentifierNode
    rw [hf]
    simp [hoff]
  · intro f off t hf hoff hdesc hnid
    unfold renameSymbol findIdentifierNode
    rw [hf]
    have hb : (t.isIdent && decide (t.start ≤ off)) = false := by
      cases hi : t.isIdent
      · simp
      · simp only [Bool.true_and, decide_eq_false_iff_not]
        intro hle
        exact hnid ⟨hi, hle⟩
    simp [hoff, hdesc, hb]
  · intro f off t hf hoff hdesc hid hne
    unfold renameSymbol findIdentifierNode
    rw [hf]
    have hb : (t.isIdent && decide (t.start ≤ off)) = true := by
      simp [hid.1, hid.2]
    have ht : (t.text == symbolName) = false := by
      simp [hne]
    simp [hoff, hdesc, hb, ht]

/-- Witness for C9: a one-file project, a position past the end of the
file, and a position on a non-identifier token. -/
theorem renameSymbol_validation_aborts_witness :
    ((renameSymbol ⟨[⟨"/a.ts", ["const x = 1"], [⟨6, 7, 6, true, "x"⟩], false⟩]⟩
        "/a.ts" 99 1 "x" "y" false).result = .error .positionOutOfRange) ∧
    ((renameSymbol ⟨[⟨"/a.ts", ["const x = 1"], [⟨6, 7, 6, true, "x"⟩], false⟩]⟩
        "/a.ts" 99 1 "x" "y" false).project =
      ⟨[⟨"/a.ts", ["const x = 1"], [⟨6, 7, 6, true, "x"⟩], false⟩]⟩) ∧
    ((renameSymbol ⟨[⟨"/a.ts", ["const x = 1"], [⟨6, 7, 6, true, "x"⟩], false⟩]⟩
        "/a.ts" 99 1 "x" "y" false).savedPaths = []) := by
  have h := renameSymbol_validation_aborts
    ⟨[⟨"/a.ts", ["const x = 1"], [⟨6, 7, 6, true, "x"⟩], false⟩]⟩ "/a.ts" 99 1 "x" "y" false
  have hres := h.2.1 ⟨"/a.ts", ["const x = 1"], [⟨6, 7, 6, true, "x"⟩], false⟩
    (by decide) (by decide)
  have habort := h.1 .positionOutOfRange hres
  exact ⟨hres, habort.1, habort.2⟩

/-- Per-edge outcome of one loop iteration of `updateModuleSpecifiers`,
as a function of the edge's state when it is processed. -/
def processEdge (ops : List RenameOperation) (d : DeclarationToUpdate) :
    Option Edge → Option Edge
  | none => none
  | some e =>
    match e.specifier with
    | none => some e
    | some _ =>
      match findNewPath d.resolvedPath ops with
      | none => some e
      | some nt =>
        if e.setFails then some e
        else some { e with specifier := some (computeNewSpecifier
          ((findNewPath d.referencingFilePath ops).getD d.referencingFilePath) nt
          d.originalSpecifierText d.wasPathAlias) }

lemma updateOne_count (ops : List RenameOperation) (st : UpdateState)
    (d : DeclarationToUpdate) :
    (updateOne ops st d).updatedCount + (updateOne ops st d).skippedCount =
      st.updatedCount + st.skippedCount + 1 := by
  unfold updateOne
  repeat' split
  all_goals dsimp only
  all_goals omega

lemma foldl_updateOne_count (ops : List RenameOperation)
    (decls : List DeclarationToUpdate) (st : UpdateState) :
    (decls.foldl (updateOne ops) st).updatedCount +
        (decls.foldl (updateOne ops) st).skippedCount =
      st.updatedCount + st.skippedCount + decls.length := by
  induction decls generalizing st with
  | nil => simp
  | cons hd tl ih =>
    rw [List.foldl_cons, ih (updateOne ops st hd), updateOne_count]
    simp only [List.length_cons]
    omega

lemma getEdge_setEdgeSpec_self (proj : Project) (i j : Nat) (s : String) (e : Edge)
    (h : getEdge proj i j = some e) :
    getEdge (setEdgeSpec proj i j s) i j = some { e with specifier := some s } := by
  unfold getEdge at h
  unfold getEdge setEdgeSpec
  cases hm : proj.modules[i]? with
  | none => rw [hm] at h; simp at h
  | some m =>
    rw [hm] at h
    simp only [Option.some_bind] at h
    dsimp only
    rw [h]
    dsimp only
    have hi : i < proj.modules.length := (List.getElem?_eq_some_iff.mp hm).1
    have hj : j < m.edges.length := (List.getElem?_eq_some_iff.mp h).1
    simp only [List.getElem?_set_self hi, Option.some_bind]
    rw [List.getElem?_set_self hj]

lemma getEdge_setEdgeSpec_ne (proj : Project) (a b : Nat) (s : String) (i j : Nat)
    (h : ¬(i = a ∧ j = b)) :
    getEdge (setEdgeSpec proj a b s) i j = getEdge proj i j := by
  unfold getEdge setEdgeSpec
  cases hm : proj.modules[a]? with
  | none => rfl
  | some m =>
    dsimp only
    cases he : m.edges[b]? with
    | none => rfl
    | some e =>
      dsimp only
      by_cases hi : i = a
      · subst hi
        have hj : j ≠ b := fun hj => h ⟨rfl, hj⟩
        have hlt : i < proj.modules.length := (List.getElem?_eq_some_iff.mp hm).1
        simp only [List.getElem?_set_self hlt, hm, Option.some_bind]
        rw [List.getElem?_set_ne (Ne.symm hj)]
      · rw [List.getElem?_set_ne (Ne.symm hi)]

lemma updateOne_proj_self (ops : List RenameOperation) (st : UpdateState)
    (d : DeclarationToUpdate) :
    getEdge (updateOne ops st d).proj d.moduleIdx d.edgeIdx =
      processEdge ops d (getEdge st.proj d.moduleIdx d.edgeIdx) := by
  unfold updateOne processEdge
  cases hg : getEdge st.proj d.moduleIdx d.edgeIdx with
  | none => exact hg
  | some e =>
    dsimp only
    cases hs : e.specifier with
    | none => exact hg
    | some s =>
      dsimp only
      cases hn : findNewPath d.resolvedPath ops with
      | none => exact hg
      | some nt =>
        dsimp only
        by_cases hf : e.setFails = true
        · rw [if_pos hf, if_pos hf]
          exact hg
        · rw [if_neg hf, if_neg hf]
          exact getEdge_setEdgeSpec_self st.proj d.moduleIdx d.edgeIdx _ e hg

lemma updateOne_proj_frame (ops : List RenameOperation) (st : UpdateState)
    (d : DeclarationToUpdate) (i j : Nat)
    (h : ¬(i = d.moduleIdx ∧ j = d.edgeIdx)) :
    getEdge (updateOne ops st d).proj i j = getEdge st.proj i j := by
  unfold updateOne
  cases hg : getEdge st.proj d.moduleIdx d.edgeIdx with
  | none => rfl
  | some e =>
    dsimp only
    cases hs : e.specifier with
    | none => rfl
    | some s =>
      dsimp only
      cases hn : findNewPath d.resolvedPath ops with
      | none => rfl
      | some nt =>
        dsimp only
        by_cases hf : e.setFails = true
        · rw [if_pos hf]
        · rw [if_neg hf]
          exact getEdge_setEdgeSpec_ne st.proj d.moduleIdx d.edgeIdx _ i j h

lemma foldl_updateOne_frame (ops : List RenameOperation)
    (decls : List DeclarationToUpdate) (st : UpdateState) (i j : Nat)
    (h : ∀ d ∈ decls, ¬(i = d.moduleIdx ∧ j = d.edgeIdx)) :
    getEdge (decls.foldl (updateOne ops) st).proj i j = getEdge st.proj i j := by
  induction decls generalizing st with
  | nil => rfl
  | cons hd tl ih =>
    rw [List.foldl_cons, ih (updateOne ops st hd) (fun d hd2 => h d (List.mem_cons_of_mem _ hd2))]
    exact updateOne_proj_frame ops st hd i j (h hd (List.mem_cons_self hd tl))

lemma foldl_updateOne_pointwise (ops : List RenameOperation)
    (decls : List DeclarationToUpdate) (st : UpdateState) (d : DeclarationToUpdate)
    (hmem : d ∈ decls)
    (hpw : decls.Pairwise (fun a b => ¬(a.moduleIdx = b.moduleIdx ∧ a.edgeIdx = b.edgeIdx))) :
    getEdge (decls.foldl (updateOne ops) st).proj d.moduleIdx d.edgeIdx =
      processEdge ops d (getEdge st.proj d.moduleIdx d.edgeIdx) := by
  induction decls generalizing st with
  | nil => cases hmem
  | cons hd tl ih =>
    rcases List.mem_cons.mp hmem with rfl | hmem2
    · rw [List.foldl_cons]
      rw [foldl_updateOne_frame ops tl (updateOne ops st d) d.moduleIdx d.edgeIdx
        (fun d2 hd2 => (List.pairwise_cons.mp hpw).1 d2 hd2)]
      exact updateOne_proj_self ops st d
    · rw [List.foldl_cons]
      rw [ih (updateOne ops st hd) hmem2 (List.pairwise_cons.mp hpw).2]
      congr 1
      exact updateOne_proj_frame ops st hd d.moduleIdx d.edgeIdx
        (fun hcontr => (List.pairwise_cons.mp hpw).1 d hmem2 ⟨hcontr.1.symm, hcontr.2.symm⟩)

lemma processEdge_no_target (ops : List RenameOperation) (d : DeclarationToUpdate)
    (oe : Option Edge) (hn : findNewPath d.resolvedPath ops = none) :
    processEdge ops d oe = oe := by
  unfold processEdge
  cases oe with
  | none => rfl
  | some e =>
    dsimp only
    cases e.specifier with
    | none => rfl
    | some s =>
      dsimp only
      rw [hn]

/-- C6: bulk specifier rewriting processes every discovered edge exactly
once (updated plus skipped counts add up to the input size), an edge whose
resolved target has no rename operation is skipped and left unchanged, an
edge whose `setModuleSpecifier` throws is skipped and left unchanged, and
every remaining edge is still rewritten — no single-edge failure aborts
the batch. -/
theorem updateModuleSpecifiers_partial_success (proj : Project)
    (decls : List DeclarationToUpdate) (ops : List RenameOperation)
    (hpw : decls.Pairwise (fun a b => ¬(a.moduleIdx = b.moduleIdx ∧ a.edgeIdx = b.edgeIdx))) :
    ((updateModuleSpecifiers proj decls ops).updatedCount +
        (updateModuleSpecifiers proj decls ops).skippedCount = decls.length) ∧
    (∀ d ∈ decls, findNewPath d.resolvedPath ops = none →
      getEdge (updateModuleSpecifiers proj decls ops).proj d.moduleIdx d.edgeIdx =
        getEdge proj d.moduleIdx d.edgeIdx) ∧
    (∀ d ∈ decls, ∀ e, getEdge proj d.moduleIdx d.edgeIdx = some e →
      e.setFails = true →
      getEdge (updateModuleSpecifiers proj decls ops).proj d.moduleIdx d.edgeIdx = some e) ∧
    (∀ d ∈ decls, ∀ e s nt, getEdge proj d.moduleIdx d.edgeIdx = some e →
      e.specifier = some s → findNewPath d.resolvedPath ops = some nt →
      e.setFails = false →
      getEdge (updateModuleSpecifiers proj decls ops).proj d.moduleIdx d.edgeIdx =
        some { e with specifier := some (computeNewSpecifier
          ((findNewPath d.referencingFilePath ops).getD d.referencingFilePath) nt
          d.originalSpecifierText d.wasPathAlias) }) := by
  refine ⟨?_, ?_, ?_, ?_⟩
  · have h := foldl_updateOne_count ops decls ⟨proj, 0, 0⟩
    simpa [updateModuleSpecifiers] using h
  · intro d hd hn
    rw [updateModuleSpecifiers, foldl_updateOne_pointwise ops decls _ d hd hpw]
    exact processEdge_no_target ops d _ hn
  · intro d hd e hg hf
    rw [updateModuleSpecifiers, foldl_updateOne_pointwise ops decls _ d hd hpw, hg]
    unfold processEdge
    dsimp only
    cases e.specifier with
    | none => rfl
    | some s =>
      dsimp only
      cases findNewPath d.resolvedPath ops with
      | none => rfl
      | some nt =>
        dsimp only
        rw [if_pos hf]
  · intro d hd e s nt hg hs hn hf
    rw [updateModuleSpecifiers, foldl_updateOne_pointwise ops decls _ d hd hpw, hg]
    unfold processEdge
    dsimp only
    rw [hs]
    dsimp only
    rw [hn]
    dsimp only
    rw [if_neg (by rw [hf]; exact Bool.false_ne_true)]

/-- Witness for C6: three declarations — one with no rename operation for
its target, one whose edit primitive throws, one that succeeds; all are
processed, and the healthy edge is still rewritten. -/
theorem updateModuleSpecifiers_partial_success_witness :
    ((updateModuleSpecifiers
        ⟨[⟨["src", "a.ts"], [⟨0, 10, some "./gone", some ["src", "gone.ts"], false⟩], false⟩,
          ⟨["src", "b.ts"], [⟨0, 10, some "./t", some ["src", "t.ts"], true⟩], false⟩,
          ⟨["src", "c.ts"], [⟨0, 10, some "./t", some ["src", "t.ts"], false⟩], false⟩], []⟩
        [⟨0, 0, ["src", "gone.ts"], ["src", "a.ts"], "./gone", false⟩,
          ⟨1, 0, ["src", "t.ts"], ["src", "b.ts"], "./t", false⟩,
          ⟨2, 0, ["src", "t.ts"], ["src", "c.ts"], "./t", false⟩]
        [⟨9, ["src", "t.ts"], ["lib", "t.ts"]⟩]).updatedCount +
      (updateModuleSpecifiers
        ⟨[⟨["src", "a.ts"], [⟨0, 10, some "./gone", some ["src", "gone.ts"], false⟩], false⟩,
          ⟨["src", "b.ts"], [⟨0, 10, some "./t", some ["src", "t.ts"], true⟩], false⟩,
          ⟨["src", "c.ts"], [⟨0, 10, some "./t", some ["src", "t.ts"], false⟩], false⟩], []⟩
        [⟨0, 0, ["src", "gone.ts"], ["src", "a.ts"], "./gone", false⟩,
          ⟨1, 0, ["src", "t.ts"], ["src", "b.ts"], "./t", false⟩,
          ⟨2, 0, ["src", "t.ts"], ["src", "c.ts"], "./t", false⟩]
        [⟨9, ["src", "t.ts"], ["lib", "t.ts"]⟩]).skippedCount = 3) ∧
    (getEdge (updateModuleSpecifiers
        ⟨[⟨["src", "a.ts"], [⟨0, 10, some "./gone", some ["src", "gone.ts"], false⟩], false⟩,
          ⟨["src", "b.ts"], [⟨0, 10, some "./t", some ["src", "t.ts"], true⟩], false⟩,
          ⟨["src", "c.ts"], [⟨0, 10, some "./t", some ["src", "t.ts"], false⟩], false⟩], []⟩
        [⟨0, 0, ["src", "gone.ts"], ["src", "a.ts"], "./gone", false⟩,
          ⟨1, 0, ["src", "t.ts"], ["src", "b.ts"], "./t", false⟩,
          ⟨2, 0, ["src", "t.ts"], ["src", "c.ts"], "./t", false⟩]
        [⟨9, ["src", "t.ts"], ["lib", "t.ts"]⟩]).proj 2 0 =
      some ⟨0, 10, some (computeNewSpecifier ["src", "c.ts"] ["lib", "t.ts"] "./t" false),
        some ["src", "t.ts"], false⟩) := by
  have h := updateModuleSpecifiers_partial_success
    ⟨[⟨["src", "a.ts"], [⟨0, 10, some "./gone", some ["src", "gone.ts"], false⟩], false⟩,
      ⟨["src", "b.ts"], [⟨0, 10, some "./t", some ["src", "t.ts"], true⟩], false⟩,
      ⟨["src", "c.ts"], [⟨0, 10, some "./t", some ["src", "t.ts"], false⟩], false⟩], []⟩
    [⟨0, 0, ["src", "gone.ts"], ["src", "a.ts"], "./gone", false⟩,
      ⟨1, 0, ["src", "t.ts"], ["src", "b.ts"], "./t", false⟩,
      ⟨2, 0, ["src", "t.ts"], ["src", "c.ts"], "./t", false⟩]
    [⟨9, ["src", "t.ts"], ["lib", "t.ts"]⟩]
    (by decide)
  refine ⟨h.1, ?_⟩
  have h4 := h.2.2.2 ⟨2, 0, ["src", "t.ts"], ["src", "c.ts"], "./t", false⟩ (by decide)
    ⟨0, 10, some "./t", some ["src", "t.ts"], false⟩ "./t" ["lib", "t.ts"]
    (by decide) (by decide) (by decide) (by decide)
  exact h4

lemma contains_iff_mem (l : List Path) (p : Path) : l.contains p = true ↔ p ∈ l := by
  simp [List.contains_eq_any_beq, List.any_eq_true]

lemma checkDestinationExists_ok_iff (proj : Project) (p : Path) :
    checkDestinationExists proj p = .ok () ↔
      hasSourceFile proj p = false ∧ hasDirectory proj p = false := by
  unfold checkDestinationExists
  split_ifs with h1 h2 <;> simp_all

lemma prepareRenamesGo_ok (proj : Project) :
    ∀ (rs : List PathMapping) (used : List Path) (acc ops : List RenameOperation),
    prepareRenamesGo proj rs used acc = .ok ops →
    ops = acc ++ (rs.map (opsForMapping proj)).flatten ∧
    (∀ r ∈ rs, checkDestinationExists proj r.newPath = .ok () ∧
      ((getSourceFileIdx proj r.oldPath).isSome = true ∨ hasDirectory proj r.oldPath = true)) ∧
    (∀ r ∈ rs, r.newPath ∉ used) ∧
    (rs.map (fun r => r.newPath)).Nodup := by
  intro rs
  induction rs with
  | nil =>
    intro used acc ops h
    unfold prepareRenamesGo at h
    simp only [Except.ok.injEq] at h
    subst h
    simp
  | cons r rest ih =>
    intro used acc ops h
    unfold prepareRenamesGo at h
    by_cases hc : used.contains r.newPath = true
    · rw [if_pos hc] at h
      cases h
    · rw [if_neg hc] at h
      cases hdest : checkDestinationExists proj r.newPath with
      | error e => rw [hdest] at h; cases h
      | ok u =>
        rw [hdest] at h
        dsimp only at h
        by_cases hsrc : ((getSourceFileIdx proj r.oldPath).isSome = true ∨
            hasDirectory proj r.oldPath = true)
        · rw [if_pos hsrc] at h
          obtain ⟨hops, hchecks, hused, hnodup⟩ := ih (r.newPath :: used) (acc ++ opsForMapping proj r) ops h
          refine ⟨?_, ?_, ?_, ?_⟩
          · rw [hops]
            simp [List.append_assoc]
          · intro r2 hr2
            rcases List.mem_cons.mp hr2 with rfl | hr3
            · exact ⟨by cases u; exact hdest, hsrc⟩
            · exact hchecks r2 hr3
          · intro r2 hr2
            rcases List.mem_cons.mp hr2 with rfl | hr3
            · intro hmem
              exact hc ((contains_iff_mem used r2.newPath).mpr hmem)
            · intro hmem
              exact hused r2 hr3 (List.mem_cons_of_mem _ hmem)
          · simp only [List.map_cons, List.nodup_cons]
            refine ⟨?_, hnodup⟩
            intro hmem
            rcases List.mem_map.mp hmem with ⟨r2, hr2, hr2eq⟩
            exact hused r2 hr2 (by rw [hr2eq]; exact List.mem_cons_self _ _)
        · rw [if_neg hsrc] at h
          cases h

lemma prepareRenamesGo_error (proj : Project) :
    ∀ (rs : List PathMapping) (used : List Path) (acc : List RenameOperation)
      (e : PlanError),
    prepareRenamesGo proj rs used acc = .error e →
    (∀ p, e = .duplicateTarget p →
      (∃ r ∈ rs, r.newPath = p) ∧
        (p ∈ used ∨ ¬(rs.map (fun r => r.newPath)).Nodup)) ∧
    (∀ p, e = .destinationExistsFile p →
      (∃ r ∈ rs, r.newPath = p) ∧ hasSourceFile proj p = true) ∧
    (∀ p, e = .destinationExistsDir p →
      (∃ r ∈ rs, r.newPath = p) ∧ hasSourceFile proj p = false ∧
        hasDirectory proj p = true) ∧
    (∀ p, e = .sourceNotFound p →
      (∃ r ∈ rs, r.oldPath = p) ∧ (getSourceFileIdx proj p).isSome = false ∧
        hasDirectory proj p = false) := by
  intro rs
  induction rs with
  | nil =>
    intro used acc e h
    unfold prepareRenamesGo at h
    cases h
  | cons r rest ih =>
    intro used acc e h
    unfold prepareRenamesGo at h
    by_cases hc : used.contains r.newPath = true
    · rw [if_pos hc] at h
      simp only [Except.error.injEq] at h
      subst h
      refine ⟨?_, ?_, ?_, ?_⟩ <;> intro p hp <;> cases hp
      exact ⟨⟨r, List.mem_cons_self _ _, rfl⟩,
        Or.inl ((contains_iff_mem used r.newPath).mp hc)⟩
    · rw [if_neg hc] at h
      cases hdest : checkDestinationExists proj r.newPath with
      | error e2 =>
        rw [hdest] at h
        simp only [Except.error.injEq] at h
        subst h
        unfold checkDestinationExists at hdest
        by_cases h1 : hasSourceFile proj r.newPath = true
        · rw [if_pos h1] at hdest
          simp only [Except.error.injEq] at hdest
          subst hdest
          refine ⟨?_, ?_, ?_, ?_⟩ <;> intro p hp <;> cases hp
          exact ⟨⟨r, List.mem_cons_self _ _, rfl⟩, h1⟩
        · rw [if_neg h1] at hdest
          by_cases h2 : hasDirectory proj r.newPath = true
          · rw [if_pos h2] at hdest
            simp only [Except.error.injEq] at hdest
            subst hdest
            refine ⟨?_, ?_, ?_, ?_⟩ <;> intro p hp <;> cases hp
            exact ⟨⟨r, List.mem_cons_self _ _, rfl⟩,
              Bool.not_eq_true _ ▸ h1, h2⟩
          · rw [if_neg h2] at hdest
            cases hdest
      | ok u =>
        rw [hdest] at h
        dsimp only at h
        by_cases hsrc : ((getSourceFileIdx proj r.oldPath).isSome = true ∨
            hasDirectory proj r.oldPath = true)
        · rw [if_pos hsrc] at h
          have hrec := ih (r.newPath :: used) (acc ++ opsForMapping proj r) e h
          refine ⟨?_, ?_, ?_, ?_⟩ <;> intro p hp
          · obtain ⟨⟨r2, hr2, hr2eq⟩, hloc⟩ := hrec.1 p hp
            refine ⟨⟨r2, List.mem_cons_of_mem _ hr2, hr2eq⟩, ?_⟩
            rcases hloc with hin | hnd
            · rcases List.mem_cons.mp hin with heq | hin2
              · right
                simp only [List.map_cons, List.nodup_cons]
                intro hcontra
                exact hcontra.1 (List.mem_map.mpr ⟨r2, hr2, by rw [hr2eq, heq]⟩)
              · exact Or.inl hin2
            · right
              simp only [List.map_cons, List.nodup_cons]
              intro hcontra
              exact hnd hcontra.2
          · obtain ⟨⟨r2, hr2, hr2eq⟩, hrest⟩ := hrec.2.1 p hp
            exact ⟨⟨r2, List.mem_cons_of_mem _ hr2, hr2eq⟩, hrest⟩
          · obtain ⟨⟨r2, hr2, hr2eq⟩, hrest⟩ := hrec.2.2.1 p hp
            exact ⟨⟨r2, List.mem_cons_of_mem _ hr2, hr2eq⟩, hrest⟩
          · obtain ⟨⟨r2, hr2, hr2eq⟩, hrest⟩ := hrec.2.2.2 p hp
            exact ⟨⟨r2, List.mem_cons_of_mem _ hr2, hr2eq⟩, hrest⟩
        · rw [if_neg hsrc] at h
          simp only [Except.error.injEq] at h
          subst h
          push_neg at hsrc
          refine ⟨?_, ?_, ?_, ?_⟩ <;> intro p hp <;> cases hp
          exact ⟨⟨r, List.mem_cons_self _ _, rfl⟩,
            Bool.not_eq_true _ ▸ hsrc.1, Bool.not_eq_true _ ▸ hsrc.2⟩

lemma getSourceFileIdx_isSome_iff (proj : Project) (p : Path) :
    (getSourceFileIdx proj p).isSome = true ↔ hasSourceFile proj p = true := by
  unfold getSourceFileIdx hasSourceFile
  rw [List.findIdx?_isSome]

/-- C2 (amended): the planner checks each mapping in input order —
duplicate target first, then destination existence, then source
resolution — and throws the first violation it meets, so each error kind
is sound for its condition (a reported `DuplicateTarget` means the batch
duplicates a target, a reported `DestinationExists` means that target
already names a module or directory, a reported `SourceNotFound` means
that source resolves to neither); conversely, whenever any of the three
conditions holds somewhere in the batch, planning fails with one of the
errors (not necessarily the one matching a given condition); in every
failing case zero moves are performed and project and storage are left
unmutated. -/
theorem prepareRenames_failure_modes (proj : Project) (renames : List PathMapping)
    (storage : Storage) (dryRun : Bool) :
    (∀ p, prepareRenames proj renames = .error (.duplicateTarget p) →
      ¬(renames.map (fun r => r.newPath)).Nodup) ∧
    (∀ p, prepareRenames proj renames = .error (.destinationExistsFile p) →
      (∃ r ∈ renames, r.newPath = p) ∧ hasSourceFile proj p = true) ∧
    (∀ p, prepareRenames proj renames = .error (.destinationExistsDir p) →
      (∃ r ∈ renames, r.newPath = p) ∧ hasDirectory proj p = true) ∧
    (∀ p, prepareRenames proj renames = .error (.sourceNotFound p) →
      (∃ r ∈ renames, r.oldPath = p) ∧ hasSourceFile proj p = false ∧
        hasDirectory proj p = false) ∧
    ((¬(renames.map (fun r => r.newPath)).Nodup ∨
      (∃ r ∈ renames, hasSourceFile proj r.newPath = true ∨
        hasDirectory proj r.newPath = true) ∨
      (∃ r ∈ renames, hasSourceFile proj r.oldPath = false ∧
        hasDirectory proj r.oldPath = false)) →
      ∃ e, prepareRenames proj renames = .error e) ∧
    (∀ e, prepareRenames proj renames = .error e →
      renameFileSystemEntry proj storage renames dryRun =
        ⟨.error e, proj, storage, []⟩) := by
  refine ⟨?_, ?_, ?_, ?_, ?_, ?_⟩
  · intro p hp
    have h := (prepareRenamesGo_error proj renames [] [] _ hp).1 p rfl
    rcases h.2 with hin | hnd
    · cases hin
    · exact hnd
  · intro p hp
    exact (prepareRenamesGo_error proj renames [] [] _ hp).2.1 p rfl
  · intro p hp
    have h := (prepareRenamesGo_error proj renames [] [] _ hp).2.2.1 p rfl
    exact ⟨h.1, h.2.2⟩
  · intro p hp
    have h := (prepareRenamesGo_error proj renames [] [] _ hp).2.2.2 p rfl
    refine ⟨h.1, ?_, h.2.2⟩
    have := h.2.1
    by_cases hsf : hasSourceFile proj p = true
    · rw [← getSourceFileIdx_isSome_iff] at hsf
      rw [hsf] at this
      cases this
    · simpa using hsf
  · intro hbad
    cases hres : prepareRenames proj renames with
    | error e => exact ⟨e, rfl⟩
    | ok ops =>
      exfalso
      obtain ⟨_, hchecks, _, hnodup⟩ := prepareRenamesGo_ok proj renames [] [] ops hres
      rcases hbad with hnd | ⟨r, hr, hbad2⟩ | ⟨r, hr, hb1, hb2⟩
      · exact hnd hnodup
      · have hok := (checkDestinationExists_ok_iff proj r.newPath).mp (hchecks r hr).1
        rcases hbad2 with h | h
        · rw [hok.1] at h; cases h
        · rw [hok.2] at h; cases h
      · rcases (hchecks r hr).2 with h | h
        · rw [getSourceFileIdx_isSome_iff] at h
          rw [hb1] at h; cases h
        · rw [hb2] at h; cases h
  · intro e he
    unfold renameFileSystemEntry
    rw [he]

/-- Counterexample for C2 as stated: the batch
`[missing.ts -> x.ts, a.ts -> x.ts]` contains a duplicate target (`x.ts`
twice), yet planning fails with `SourceNotFound` — not `DuplicateTarget` —
because the per-mapping checks run in input order and the first mapping's
missing source is hit first. -/
theorem prepareRenames_duplicate_not_reported_counterexample :
    prepareRenames ⟨[⟨["a.ts"], [], false⟩], []⟩
        [⟨["missing.ts"], ["x.ts"]⟩, ⟨["a.ts"], ["x.ts"]⟩] =
      .error (.sourceNotFound ["missing.ts"]) ∧
    ¬(([⟨["missing.ts"], ["x.ts"]⟩, ⟨["a.ts"], ["x.ts"]⟩] :
        List PathMapping).map (fun r => r.newPath)).Nodup := by
  constructor
  · rfl
  · decide

/-- Witness for C2: at the concrete failing batch above, the whole
rename entry point reports the planner's error and leaves project,
storage and disk untouched. -/
theorem prepareRenames_failure_modes_witness :
    renameFileSystemEntry ⟨[⟨["a.ts"], [], false⟩], []⟩ []
        [⟨["missing.ts"], ["x.ts"]⟩, ⟨["a.ts"], ["x.ts"]⟩] false =
      ⟨.error (.sourceNotFound ["missing.ts"]), ⟨[⟨["a.ts"], [], false⟩], []⟩, [], []⟩ := by
  exact (prepareRenames_failure_modes ⟨[⟨["a.ts"], [], false⟩], []⟩
    [⟨["missing.ts"], ["x.ts"]⟩, ⟨["a.ts"], ["x.ts"]⟩] [] false).2.2.2.2.2
    (.sourceNotFound ["missing.ts"]) (by rfl)

lemma ancestorOrSelf_iff (p q : Path) :
    ancestorOrSelf p q = true ↔ ∃ s, q = p ++ s := by
  induction p generalizing q with
  | nil => simp [ancestorOrSelf]
  | cons x xs ih =>
    cases q with
    | nil =>
      simp only [ancestorOrSelf, Bool.false_eq_true, false_iff]
      rintro ⟨s, hs⟩
      cases hs
    | cons y ys =>
      simp only [ancestorOrSelf, Bool.and_eq_true, beq_iff_eq, ih]
      constructor
      · rintro ⟨rfl, s, rfl⟩
        exact ⟨s, rfl⟩
      · rintro ⟨s, hs⟩
        injection hs with h1 h2
        exact ⟨h1.symm, s, h2⟩

lemma strictAncestor_iff (p q : Path) :
    strictAncestor p q = true ↔ ∃ s, s ≠ [] ∧ q = p ++ s := by
  unfold strictAncestor
  simp only [Bool.and_eq_true, bne_iff_ne, ne_eq, ancestorOrSelf_iff]
  constructor
  · rintro ⟨hne, s, rfl⟩
    refine ⟨s, ?_, rfl⟩
    rintro rfl
    simp at hne
  · rintro ⟨s, hs, rfl⟩
    refine ⟨?_, s, rfl⟩
    intro h
    rw [List.self_eq_append_right] at h
    exact hs h

lemma listRelative_append (p s : Path) : listRelative p (p ++ s) = s := by
  induction p with
  | nil => rw [List.nil_append]; cases s <;> rfl
  | cons x xs ih =>
    show listRelative (x :: xs) (x :: (xs ++ s)) = s
    unfold listRelative
    rw [if_pos rfl]
    exact ih

lemma resolveApply_append (b s : Path)
    (h : ∀ c ∈ s, c ≠ ".." ∧ c ≠ ".") : resolveApply b s = b ++ s := by
  induction s generalizing b with
  | nil => simp [resolveApply]
  | cons c rest ih =>
    have hc := h c (List.mem_cons_self _ _)
    unfold resolveApply
    rw [if_neg hc.1, if_neg hc.2]
    rw [ih (b ++ [c]) (fun c2 hc2 => h c2 (List.mem_cons_of_mem _ hc2))]
    simp

lemma append_prefix_total (p1 s1 p2 s2 : Path) (h : p1 ++ s1 = p2 ++ s2) :
    (∃ t, p2 = p1 ++ t) ∨ (∃ t, p1 = p2 ++ t) := by
  induction p1 generalizing p2 with
  | nil => exact Or.inl ⟨p2, rfl⟩
  | cons x xs ih =>
    cases p2 with
    | nil => exact Or.inr ⟨x :: xs, rfl⟩
    | cons y ys =>
      injection h with h1 h2
      rcases ih ys h2 with ⟨t, ht⟩ | ⟨t, ht⟩
      · exact Or.inl ⟨t, by rw [← h1, ht]; rfl⟩
      · exact Or.inr ⟨t, by rw [h1, ht]; rfl⟩

/-- A normalised path: no empty, `.` or `..` components (what
`path.resolve` produces for absolute inputs). -/
def normalPath (p : Path) : Prop := ∀ c ∈ p, c ≠ ".." ∧ c ≠ "."

instance (p : Path) : Decidable (normalPath p) := by
  unfold normalPath
  infer_instance

lemma hasSourceFile_iff (proj : Project) (p : Path) :
    hasSourceFile proj p = true ↔ ∃ m ∈ proj.modules, m.path = p := by
  unfold hasSourceFile
  simp [List.any_eq_true]

lemma hasDirectory_iff (proj : Project) (p : Path) :
    hasDirectory proj p = true ↔ ∃ m ∈ proj.modules, strictAncestor p m.path = true := by
  unfold hasDirectory
  simp [List.any_eq_true]

lemma opsForMapping_shape (proj : Project) (r : PathMapping)
    (hnorm : ∀ m ∈ proj.modules, normalPath m.path) :
    ∀ op ∈ opsForMapping proj r,
      (∃ s, op.newPath = r.newPath ++ s ∧
        (s = [] → op.oldPath = r.oldPath ∧ op.newPath = r.newPath) ∧
        (s ≠ [] → strictAncestor r.oldPath op.oldPath = true ∧
          hasSourceFile proj op.oldPath = true ∧
          op.newPath = r.newPath ++ op.oldPath.drop r.oldPath.length)) ∧
      hasSourceFile proj op.oldPath = true := by
  intro op hop
  unfold opsForMapping at hop
  cases hidx : getSourceFileIdx proj r.oldPath with
  | some i =>
    rw [hidx] at hop
    dsimp only at hop
    rcases List.mem_singleton.mp hop with rfl
    have hsf : hasSourceFile proj r.oldPath = true := by
      rw [← getSourceFileIdx_isSome_iff, hidx]
      rfl
    exact ⟨⟨[], by simp, fun _ => ⟨rfl, by simp⟩, fun h => absurd rfl h⟩, hsf⟩
  | none =>
    rw [hidx] at hop
    dsimp only at hop
    rcases List.mem_map.mp hop with ⟨⟨i, m⟩, him, rfl⟩
    have him2 := List.mem_filter.mp him
    have hanc := him2.2
    obtain ⟨s0, hs0ne, hs0⟩ := (strictAncestor_iff _ _).mp hanc
    have hmem : (i, m).2 ∈ proj.modules := by
      have := List.mk_mem_enum_iff_getElem?.mp him2.1
      rcases List.getElem?_eq_some_iff.mp this with ⟨hlt, hval⟩
      rw [← hval]
      exact List.getElem_mem hlt
    have hnormS : ∀ c ∈ s0, c ≠ ".." ∧ c ≠ "." := by
      intro c hc
      exact hnorm m hmem c (by
        show c ∈ (i, m).2.path
        rw [hs0]; exact List.mem_append_right _ hc)
    have hnewEq : resolveApply r.newPath (listRelative r.oldPath (i, m).2.path) =
        r.newPath ++ s0 := by
      rw [hs0, listRelative_append, resolveApply_append _ _ hnormS]
    have hsf : hasSourceFile proj (i, m).2.path = true :=
      (hasSourceFile_iff proj (i, m).2.path).mpr ⟨m, hmem, rfl⟩
    refine ⟨⟨s0, hnewEq, fun h => absurd h hs0ne, fun _ => ⟨hanc, hsf, ?_⟩⟩, hsf⟩
    dsimp only
    rw [hnewEq, hs0, List.drop_left]

lemma enum_path_inj (proj : Project)
    (hmods : (proj.modules.map (fun m => m.path)).Nodup) :
    ∀ im1 ∈ proj.modules.enum, ∀ im2 ∈ proj.modules.enum,
      im1.2.path = im2.2.path → im1 = im2 := by
  rintro ⟨i1, m1⟩ h1 ⟨i2, m2⟩ h2 hpq
  have g1 := List.mk_mem_enum_iff_getElem?.mp h1
  have g2 := List.mk_mem_enum_iff_getElem?.mp h2
  rcases List.getElem?_eq_some_iff.mp g1 with ⟨hl1, hv1⟩
  rcases List.getElem?_eq_some_iff.mp g2 with ⟨hl2, hv2⟩
  have hl1m : i1 < (proj.modules.map (fun m => m.path)).length := by simpa using hl1
  have hl2m : i2 < (proj.modules.map (fun m => m.path)).length := by simpa using hl2
  have hpath : (proj.modules.map (fun m => m.path))[i1] =
      (proj.modules.map (fun m => m.path))[i2] := by
    simp only [List.getElem_map]
    rw [hv1, hv2]
    exact hpq
  have hidx : i1 = i2 := (hmods.getElem_inj_iff).mp hpath
  subst hidx
  have : m1 = m2 := by rw [← hv1, ← hv2]
  rw [this]

lemma opsForMapping_newPaths_nodup (proj : Project) (r : PathMapping)
    (hmods : (proj.modules.map (fun m => m.path)).Nodup)
    (hnorm : ∀ m ∈ proj.modules, normalPath m.path) :
    ((opsForMapping proj r).map (fun op => op.newPath)).Nodup := by
  unfold opsForMapping
  cases getSourceFileIdx proj r.oldPath with
  | some i => simp
  | none =>
    dsimp only
    rw [List.map_map]
    apply List.Nodup.map_on
    · rintro ⟨i1, m1⟩ h1 ⟨i2, m2⟩ h2 heq
      have h1f := List.mem_filter.mp h1
      have h2f := List.mem_filter.mp h2
      obtain ⟨s1, hs1ne, hs1⟩ := (strictAncestor_iff _ _).mp h1f.2
      obtain ⟨s2, hs2ne, hs2⟩ := (strictAncestor_iff _ _).mp h2f.2
      have hm1 : m1 ∈ proj.modules := by
        have := List.mk_mem_enum_iff_getElem?.mp h1f.1
        rcases List.getElem?_eq_some_iff.mp this with ⟨hlt, hval⟩
        rw [← hval]; exact List.getElem_mem hlt
      have hm2 : m2 ∈ proj.modules := by
        have := List.mk_mem_enum_iff_getElem?.mp h2f.1
        rcases List.getElem?_eq_some_iff.mp this with ⟨hlt, hval⟩
        rw [← hval]; exact List.getElem_mem hlt
      have hn1 : ∀ c ∈ s1, c ≠ ".." ∧ c ≠ "." := fun c hc =>
        hnorm m1 hm1 c (by rw [hs1]; exact List.mem_append_right _ hc)
      have hn2 : ∀ c ∈ s2, c ≠ ".." ∧ c ≠ "." := fun c hc =>
        hnorm m2 hm2 c (by rw [hs2]; exact List.mem_append_right _ hc)
      simp only [Function.comp] at heq
      rw [hs1, hs2, listRelative_append, listRelative_append,
        resolveApply_append _ _ hn1, resolveApply_append _ _ hn2] at heq
      have hseq : s1 = s2 := List.append_cancel_left heq
      have hpaths : m1.path = m2.path := by rw [hs1, hs2, hseq]
      exact enum_path_inj proj hmods ⟨i1, m1⟩ h1f.1 ⟨i2, m2⟩ h2f.1 hpaths
    · apply List.Nodup.filter
      have := List.nodup_enum_map_fst proj.modules
      exact this.of_map Prod.fst

/-- C1 (amended): when the planner accepts a batch whose mapping targets
are pairwise non-nested (no target is an ancestor-or-equal of another),
the `newPath`s of all emitted operations — including directory
expansions — are pairwise distinct; and for every accepted batch, no
emitted `newPath` names an existing module or directory of the project
(renamed or not). -/
theorem prepareRenames_newPaths_distinct (proj : Project)
    (renames : List PathMapping) (ops : List RenameOperation)
    (hok : prepareRenames proj renames = .ok ops)
    (hmods : (proj.modules.map (fun m => m.path)).Nodup)
    (hnorm : ∀ m ∈ proj.modules, normalPath m.path) :
    (renames.Pairwise (fun a b =>
      ancestorOrSelf a.newPath b.newPath = false ∧
      ancestorOrSelf b.newPath a.newPath = false) →
      (ops.map (fun op => op.newPath)).Nodup) ∧
    (∀ op ∈ ops, hasSourceFile proj op.newPath = false ∧
      hasDirectory proj op.newPath = false) := by
  obtain ⟨hops, hchecks, _, _⟩ := prepareRenamesGo_ok proj renames [] [] ops hok
  rw [List.nil_append] at hops
  subst hops
  constructor
  · intro htgt
    rw [List.map_flatten, List.map_map]
    apply List.nodup_flatten.mpr
    constructor
    · intro l hl
      rcases List.mem_map.mp hl with ⟨r, hr, rfl⟩
      exact opsForMapping_newPaths_nodup proj r hmods hnorm
    · apply List.pairwise_map.mpr
      apply htgt.imp
      intro a b hcond
      intro p hp1 hp2
      simp only [Function.comp] at hp1 hp2
      rcases List.mem_map.mp hp1 with ⟨op1, hop1, rfl⟩
      rcases List.mem_map.mp hp2 with ⟨op2, hop2, heq⟩
      obtain ⟨⟨s1, hs1, _, _⟩, _⟩ := opsForMapping_shape proj a hnorm op1 hop1
      obtain ⟨⟨s2, hs2, _, _⟩, _⟩ := opsForMapping_shape proj b hnorm op2 hop2
      have heq2 : b.newPath ++ s2 = a.newPath ++ s1 := by
        rw [← hs1, ← hs2, heq]
      rcases append_prefix_total _ _ _ _ heq2 with ⟨t, ht⟩ | ⟨t, ht⟩
      · have : ancestorOrSelf b.newPath a.newPath = true :=
          (ancestorOrSelf_iff _ _).mpr ⟨t, ht⟩
        rw [hcond.2] at this
        cases this
      · have : ancestorOrSelf a.newPath b.newPath = true :=
          (ancestorOrSelf_iff _ _).mpr ⟨t, ht⟩
        rw [hcond.1] at this
        cases this
  · intro op hop
    rcases List.mem_flatten.mp hop with ⟨l, hl, hopl⟩
    rcases List.mem_map.mp hl with ⟨r, hr, rfl⟩
    obtain ⟨⟨s, hs, _, _⟩, _⟩ := opsForMapping_shape proj r hnorm op hopl
    have hcheck := (checkDestinationExists_ok_iff proj r.newPath).mp (hchecks r hr).1
    constructor
    · cases hres : hasSourceFile proj op.newPath with
      | false => rfl
      | true =>
        exfalso
        rcases (hasSourceFile_iff proj op.newPath).mp hres with ⟨m, hm, hmp⟩
        cases hsc : s with
        | nil =>
          rw [hsc, List.append_nil] at hs
          have : hasSourceFile proj r.newPath = true :=
            (hasSourceFile_iff proj r.newPath).mpr ⟨m, hm, by rw [hmp, hs]⟩
          rw [hcheck.1] at this
          cases this
        | cons c s2 =>
          have : hasDirectory proj r.newPath = true := by
            apply (hasDirectory_iff proj r.newPath).mpr
            refine ⟨m, hm, (strictAncestor_iff _ _).mpr ⟨s, ?_, by rw [hmp, hs]⟩⟩
            rw [hsc]
            exact List.cons_ne_nil c s2
          rw [hcheck.2] at this
          cases this
    · cases hres : hasDirectory proj op.newPath with
      | false => rfl
      | true =>
        exfalso
        rcases (hasDirectory_iff proj op.newPath).mp hres with ⟨m, hm, hanc⟩
        obtain ⟨t, htne, hteq⟩ := (strictAncestor_iff _ _).mp hanc
        have : hasDirectory proj r.newPath = true := by
          apply (hasDirectory_iff proj r.newPath).mpr
          refine ⟨m, hm, (strictAncestor_iff _ _).mpr ⟨s ++ t, ?_, ?_⟩⟩
          · intro hcontra
            rcases List.append_eq_nil.mp hcontra with ⟨_, ht0⟩
            exact htne ht0
          · rw [hteq, hs, List.append_assoc]
        rw [hcheck.2] at this
        cases this

/-- Counterexample for C1 as stated: a file mapping into `x/` and a
directory mapping onto `x` pass all planner checks (the mapping-level
targets `x/f.ts` and `x` are distinct and name nothing in the project),
yet the directory expansion emits a second operation with the same
`newPath` `x/f.ts`. -/
theorem prepareRenames_newPaths_distinct_counterexample :
    prepareRenames ⟨[⟨["a", "f.ts"], [], false⟩, ⟨["b", "f.ts"], [], false⟩], []⟩
        [⟨["a", "f.ts"], ["x", "f.ts"]⟩, ⟨["b"], ["x"]⟩] =
      .ok [⟨0, ["a", "f.ts"], ["x", "f.ts"]⟩, ⟨1, ["b", "f.ts"], ["x", "f.ts"]⟩] ∧
    ¬(([⟨0, ["a", "f.ts"], ["x", "f.ts"]⟩, ⟨1, ["b", "f.ts"], ["x", "f.ts"]⟩] :
        List RenameOperation).map (fun op => op.newPath)).Nodup := by
  exact ⟨by rfl, by decide⟩

/-- Witness for C1 at a concrete accepted batch (one file mapping and one
directory mapping, targets not nested). -/
theorem prepareRenames_newPaths_distinct_witness :
    (([⟨0, ["a", "f.ts"], ["c", "f.ts"]⟩, ⟨1, ["d", "g.ts"], ["e", "g.ts"]⟩,
        ⟨2, ["d", "h.ts"], ["e", "h.ts"]⟩] :
      List RenameOperation).map (fun op => op.newPath)).Nodup ∧
    (∀ op ∈ ([⟨0, ["a", "f.ts"], ["c", "f.ts"]⟩, ⟨1, ["d", "g.ts"], ["e", "g.ts"]⟩,
        ⟨2, ["d", "h.ts"], ["e", "h.ts"]⟩] : List RenameOperation),
      hasSourceFile ⟨[⟨["a", "f.ts"], [], false⟩, ⟨["d", "g.ts"], [], false⟩,
        ⟨["d", "h.ts"], [], false⟩], []⟩ op.newPath = false ∧
      hasDirectory ⟨[⟨["a", "f.ts"], [], false⟩, ⟨["d", "g.ts"], [], false⟩,
        ⟨["d", "h.ts"], [], false⟩], []⟩ op.newPath = false) := by
  have h := prepareRenames_newPaths_distinct
    ⟨[⟨["a", "f.ts"], [], false⟩, ⟨["d", "g.ts"], [], false⟩,
      ⟨["d", "h.ts"], [], false⟩], []⟩
    [⟨["a", "f.ts"], ["c", "f.ts"]⟩, ⟨["d"], ["e"]⟩]
    [⟨0, ["a", "f.ts"], ["c", "f.ts"]⟩, ⟨1, ["d", "g.ts"], ["e", "g.ts"]⟩,
      ⟨2, ["d", "h.ts"], ["e", "h.ts"]⟩]
    (by rfl) (by decide) (by decide)
  exact ⟨h.1 (by decide), h.2⟩

/-- A mapping reaches a path: directly for a module source, via strict
ancestry for a directory source (mirroring the planner's module-first
dispatch). -/
def affectsPath (proj : Project) (r : PathMapping) (p : Path) : Bool :=
  if (getSourceFileIdx proj r.oldPath).isSome then r.oldPath == p
  else strictAncestor r.oldPath p

lemma opsForMapping_affects (proj : Project) (r : PathMapping) :
    ∀ op ∈ opsForMapping proj r, affectsPath proj r op.oldPath = true := by
  intro op hop
  unfold opsForMapping at hop
  unfold affectsPath
  cases hidx : getSourceFileIdx proj r.oldPath with
  | some i =>
    rw [hidx] at hop
    dsimp only at hop
    rcases List.mem_singleton.mp hop with rfl
    simp
  | none =>
    rw [hidx] at hop
    dsimp only at hop
    rcases List.mem_map.mp hop with ⟨⟨i, m⟩, him, rfl⟩
    simp only [Option.isSome_none, Bool.false_eq_true, if_false]
    exact (List.mem_filter.mp him).2

lemma opsForMapping_oldPaths_nodup (proj : Project) (r : PathMapping)
    (hmods : (proj.modules.map (fun m => m.path)).Nodup) :
    ((opsForMapping proj r).map (fun op => op.oldPath)).Nodup := by
  unfold opsForMapping
  cases getSourceFileIdx proj r.oldPath with
  | some i => simp
  | none =>
    dsimp only
    rw [List.map_map]
    apply List.Nodup.map_on
    · rintro ⟨i1, m1⟩ h1 ⟨i2, m2⟩ h2 heq
      simp only [Function.comp] at heq
      exact enum_path_inj proj hmods ⟨i1, m1⟩ (List.mem_filter.mp h1).1
        ⟨i2, m2⟩ (List.mem_filter.mp h2).1 heq
    · apply List.Nodup.filter
      exact (List.nodup_enum_map_fst proj.modules).of_map Prod.fst

/-- C3 (amended): when the planner accepts a batch whose requested sources
reach pairwise-disjoint module sets, it emits exactly one operation per
affected module (the emitted old paths are pairwise distinct); for every
accepted batch, the emitted old paths are exactly the project modules
reached by some mapping, and every directory-expanded operation's new path
is the mapping target extended with the module's path relative to the
source directory. -/
theorem prepareRenames_one_op_per_module (proj : Project)
    (renames : List PathMapping) (ops : List RenameOperation)
    (hok : prepareRenames proj renames = .ok ops)
    (hmods : (proj.modules.map (fun m => m.path)).Nodup)
    (hnorm : ∀ m ∈ proj.modules, normalPath m.path) :
    (renames.Pairwise (fun a b => ∀ m ∈ proj.modules,
      ¬(affectsPath proj a m.path = true ∧ affectsPath proj b m.path = true)) →
      (ops.map (fun op => op.oldPath)).Nodup) ∧
    (∀ p, (∃ op ∈ ops, op.oldPath = p) ↔
      (hasSourceFile proj p = true ∧ ∃ r ∈ renames, affectsPath proj r p = true)) ∧
    (∀ op ∈ ops, ∃ r ∈ renames,
      (op.oldPath = r.oldPath ∧ op.newPath = r.newPath) ∨
      (strictAncestor r.oldPath op.oldPath = true ∧
        op.newPath = r.newPath ++ op.oldPath.drop r.oldPath.length)) := by
  obtain ⟨hops, hchecks, _, _⟩ := prepareRenamesGo_ok proj renames [] [] ops hok
  rw [List.nil_append] at hops
  subst hops
  refine ⟨?_, ?_, ?_⟩
  · intro hdisj
    rw [List.map_flatten, List.map_map]
    apply List.nodup_flatten.mpr
    constructor
    · intro l hl
      rcases List.mem_map.mp hl with ⟨r, hr, rfl⟩
      exact opsForMapping_oldPaths_nodup proj r hmods
    · apply List.pairwise_map.mpr
      apply hdisj.imp
      intro a b hcond
      intro p hp1 hp2
      simp only [Function.comp] at hp1 hp2
      rcases List.mem_map.mp hp1 with ⟨op1, hop1, rfl⟩
      rcases List.mem_map.mp hp2 with ⟨op2, hop2, heq⟩
      obtain ⟨_, hsf⟩ := opsForMapping_shape proj a hnorm op1 hop1
      rcases (hasSourceFile_iff proj op1.oldPath).mp hsf with ⟨m, hm, hmp⟩
      have ha := opsForMapping_affects proj a op1 hop1
      have hb := opsForMapping_affects proj b op2 hop2
      rw [heq] at hb
      exact hcond m hm ⟨by rw [hmp]; exact ha, by rw [hmp]; exact hb⟩
  · intro p
    constructor
    · rintro ⟨op, hop, rfl⟩
      rcases List.mem_flatten.mp hop with ⟨l, hl, hopl⟩
      rcases List.mem_map.mp hl with ⟨r, hr, rfl⟩
      obtain ⟨_, hsf⟩ := opsForMapping_shape proj r hnorm op hopl
      exact ⟨hsf, r, hr, opsForMapping_affects proj r op hopl⟩
    · rintro ⟨hsf, r, hr, haff⟩
      unfold affectsPath at haff
      cases hidx : getSourceFileIdx proj r.oldPath with
      | some i =>
        rw [hidx] at haff
        simp only [Option.isSome_some, if_true, beq_iff_eq] at haff
        refine ⟨⟨i, r.oldPath, r.newPath⟩, ?_, haff⟩
        apply List.mem_flatten_of_mem (List.mem_map_of_mem (opsForMapping proj) hr)
        unfold opsForMapping
        rw [hidx]
        exact List.mem_singleton.mpr rfl
      | none =>
        rw [hidx] at haff
        simp only [Option.isSome_none, Bool.false_eq_true, if_false] at haff
        rcases (hasSourceFile_iff proj p).mp hsf with ⟨m, hm, hmp⟩
        rcases List.mem_iff_getElem.mp hm with ⟨i, hlt, hval⟩
        refine ⟨⟨i, m.path,
          resolveApply r.newPath (listRelative r.oldPath m.path)⟩, ?_, hmp⟩
        apply List.mem_flatten_of_mem (List.mem_map_of_mem (opsForMapping proj) hr)
        unfold opsForMapping
        rw [hidx]
        dsimp only
        apply List.mem_map.mpr
        refine ⟨(i, m), ?_, rfl⟩
        apply List.mem_filter.mpr
        refine ⟨List.mk_mem_enum_iff_getElem?.mpr ?_, by rw [hmp]; exact haff⟩
        rw [List.getElem?_eq_some_iff]
        exact ⟨hlt, hval⟩
  · intro op hop
    rcases List.mem_flatten.mp hop with ⟨l, hl, hopl⟩
    rcases List.mem_map.mp hl with ⟨r, hr, rfl⟩
    obtain ⟨⟨s, hs, hfile, hdir⟩, _⟩ := opsForMapping_shape proj r hnorm op hopl
    refine ⟨r, hr, ?_⟩
    cases hsc : s with
    | nil => exact Or.inl (hfile hsc)
    | cons c s2 =>
      right
      have := hdir (by rw [hsc]; exact List.cons_ne_nil c s2)
      exact ⟨this.1, this.2.2⟩

/-- Counterexample for C3 as stated: a batch whose sources overlap (a file
mapping and a directory mapping that contains the same file) is accepted
with no destination collision, yet the affected module `a/f.ts` receives
two rename operations, not exactly one. -/
theorem prepareRenames_one_op_per_module_counterexample :
    prepareRenames ⟨[⟨["a", "f.ts"], [], false⟩], []⟩
        [⟨["a", "f.ts"], ["x", "f.ts"]⟩, ⟨["a"], ["y"]⟩] =
      .ok [⟨0, ["a", "f.ts"], ["x", "f.ts"]⟩, ⟨0, ["a", "f.ts"], ["y", "f.ts"]⟩] ∧
    ¬(([⟨0, ["a", "f.ts"], ["x", "f.ts"]⟩, ⟨0, ["a", "f.ts"], ["y", "f.ts"]⟩] :
        List RenameOperation).map (fun op => op.oldPath)).Nodup := by
  exact ⟨by rfl, by decide⟩

/-- Witness for C3 at the accepted batch of the C1 witness (one file
mapping, one disjoint directory mapping). -/
theorem prepareRenames_one_op_per_module_witness :
    ((([⟨0, ["a", "f.ts"], ["c", "f.ts"]⟩, ⟨1, ["d", "g.ts"], ["e", "g.ts"]⟩,
        ⟨2, ["d", "h.ts"], ["e", "h.ts"]⟩] :
      List RenameOperation).map (fun op => op.oldPath)).Nodup) ∧
    (∃ op ∈ ([⟨0, ["a", "f.ts"], ["c", "f.ts"]⟩, ⟨1, ["d", "g.ts"], ["e", "g.ts"]⟩,
        ⟨2, ["d", "h.ts"], ["e", "h.ts"]⟩] : List RenameOperation),
      op.oldPath = ["d", "g.ts"]) := by
  have h := prepareRenames_one_op_per_module
    ⟨[⟨["a", "f.ts"], [], false⟩, ⟨["d", "g.ts"], [], false⟩,
      ⟨["d", "h.ts"], [], false⟩], []⟩
    [⟨["a", "f.ts"], ["c", "f.ts"]⟩, ⟨["d"], ["e"]⟩]
    [⟨0, ["a", "f.ts"], ["c", "f.ts"]⟩, ⟨1, ["d", "g.ts"], ["e", "g.ts"]⟩,
      ⟨2, ["d", "h.ts"], ["e", "h.ts"]⟩]
    (by rfl) (by decide) (by decide)
  refine ⟨h.1 (by decide), ?_⟩
  apply (h.2.1 ["d", "g.ts"]).mpr
  refine ⟨by decide, ⟨["d"], ["e"]⟩, by decide, by decide⟩

/- ------------------------------------------------------------------ -/
/- C4: characterisation of the non-alias specifier rewrite             -/
/- ------------------------------------------------------------------ -/

/-- The shape in which the index-simplification regex actually collapses
a relative path: nothing but `..` segments in front of an index
basename. -/
def ancestorIndexShape (rel : List String) : Bool :=
  rel.dropLast.all (fun c => c == "..") && isIndexBase (rel.getLastD "")

/-- The amended section 4.3 non-alias rewrite, stated the way the amended
claim reads: the relative path from the new owner's directory to the new
target; collapsed only when the original specifier was index-simplified,
its extension is not preserved, and the relative path is pure `..`
segments (or nothing) in front of an index file — so an edge importing a
sub-directory becomes an explicit `.../index` specifier; otherwise the
final extension is stripped exactly when the original's extension is not
in the preserved set and the new file's extension is one of the default
source extensions. -/
def specifierRewriteSpec (newRef newTgt : Path) (orig : String) : String :=
  let rel := listRelative (dirname newRef) newTgt
  if rel.isEmpty then "./"
  else if wasIndexSimplifiedFn orig &&
      !(PRESERVE_EXTENSIONS.contains (extname orig)) && ancestorIndexShape rel then
    if rel.length = 1 then "." else String.intercalate "/" rel.dropLast
  else
    let comps := withDotSlash rel
    let base := rel.getLastD ""
    let ext := extnameBase base
    if !(PRESERVE_EXTENSIONS.contains (extname orig)) &&
        DEFAULT_EXTENSIONS_TO_REMOVE.contains ext then
      String.intercalate "/" (comps.dropLast ++ [strDropRight base ext.length])
    else String.intercalate "/" comps

lemma mem_listRelative (b t : Path) (c : String) (hc : c ∈ listRelative b t) :
    c = ".." ∨ c ∈ t := by
  induction b generalizing t with
  | nil =>
    cases t with
    | nil => cases hc
    | cons y ys => exact Or.inr hc
  | cons x xs ih =>
    cases t with
    | nil =>
      left
      rcases List.mem_map.mp hc with ⟨_, _, rfl⟩
      rfl
    | cons y ys =>
      unfold listRelative at hc
      by_cases hxy : x = y
      · rw [if_pos hxy] at hc
        rcases ih ys hc with h | h
        · exact Or.inl h
        · exact Or.inr (List.mem_cons_of_mem _ h)
      · rw [if_neg hxy] at hc
        rcases List.mem_append.mp hc with h | h
        · left
          rcases List.mem_map.mp h with ⟨_, _, rfl⟩
          rfl
        · exact Or.inr h

lemma band_elim (a b : Bool) (h : (a && b) = true) : a = true ∧ b = true := by
  simp only [Bool.and_eq_true] at h
  exact h

lemma isIndexBase_head (s : String) (h : isIndexBase s = true) :
    s.data.head? = some 'i' := by
  unfold isIndexBase at h
  simp only [Bool.or_eq_true, beq_iff_eq] at h
  rcases h with ((((h | h) | h) | h) | h) | h <;> subst h <;> rfl

lemma getLastD_dotSlash (rel : List String) (hne : rel ≠ []) :
    ("." :: rel).getLastD "" = rel.getLastD "" := by
  cases rel with
  | nil => cases hne rfl
  | cons a l => simp [List.getLastD_cons]

lemma needsDotSlash_dotdot (l : List String) : needsDotSlash (".." :: l) = false := rfl

lemma indexRegexGroup_withDotSlash (rel : List String)
    (hne : rel ≠ []) (hdot : "." ∉ rel) :
    indexRegexGroup (withDotSlash rel) =
      (if ancestorIndexShape rel = true then
        some (if rel.length = 1 then "." else String.intercalate "/" rel.dropLast)
       else none) := by
  unfold withDotSlash
  by_cases hds : needsDotSlash rel = true
  · rw [if_pos hds]
    unfold indexRegexGroup
    dsimp only
    cases rel with
    | nil => cases hne rfl
    | cons c0 rest =>
      cases rest with
      | nil =>
        by_cases hidx : isIndexBase ([c0].getLastD "") = true
        · rw [if_pos (by simpa using hidx), if_pos (by
            unfold ancestorIndexShape
            simpa using hidx)]
          rfl
        · rw [if_neg ?na, if_neg ?nb]
          case na =>
            intro h
            exact hidx (band_elim _ _ h).2
          case nb =>
            intro h
            unfold ancestorIndexShape at h
            exact hidx (band_elim _ _ h).2
      | cons c1 rest2 =>
        rw [if_neg ?na, if_neg ?nb]
        case na =>
          intro h
          have hall := (band_elim _ _ (band_elim _ _ h).1).2
          rw [List.dropLast_cons₂, List.all_cons] at hall
          have hc0 : c0 = ".." := by
            have := (band_elim _ _ hall).1
            simpa using this
          subst hc0
          rw [needsDotSlash_dotdot] at hds
          cases hds
        case nb =>
          intro h
          unfold ancestorIndexShape at h
          have hall := (band_elim _ _ h).1
          rw [List.dropLast_cons₂, List.all_cons] at hall
          have hc0 : c0 = ".." := by
            have := (band_elim _ _ hall).1
            simpa using this
          subst hc0
          rw [needsDotSlash_dotdot] at hds
          cases hds
  · rw [if_neg hds]
    rcases rel with _ | ⟨c0, rest0⟩
    · cases hne rfl
    · have hc0ne : c0 ≠ "." := by
        intro h
        exact hdot (h ▸ List.mem_cons_self c0 rest0)
      unfold indexRegexGroup
      dsimp only
      by_cases hc0 : c0 = ".."
      · subst hc0
        cases rest0 with
        | nil =>
          rw [if_neg (by simp), if_neg ?nb]
          case nb =>
            intro h
            unfold ancestorIndexShape at h
            have := (band_elim _ _ h).2
            simp only [List.getLastD_cons, List.getLastD_nil] at this
            simp [isIndexBase] at this
        | cons c1 rest1 =>
          unfold ancestorIndexShape
          rw [List.dropLast_cons₂, List.all_cons]
          simp only [List.getLastD_cons]
          by_cases hcond : ((c1 :: rest1).dropLast.all (fun c => c == "..") &&
              isIndexBase (rest1.getLastD c1)) = true
          · have h1 := (band_elim _ _ hcond).1
            have h2 := (band_elim _ _ hcond).2
            rw [if_pos ?p1, if_pos ?p2]
            case p1 =>
              rw [h1, h2]
              rfl
            case p2 =>
              rw [h1, h2]
              rfl
            rw [if_neg (by simp)]
          · rw [if_neg ?n1, if_neg ?n2]
            case n1 =>
              intro h
              apply hcond
              have ha := (band_elim _ _ (band_elim _ _ h).1).2
              have hb := (band_elim _ _ h).2
              rw [ha, hb]
              rfl
            case n2 =>
              intro h
              apply hcond
              have ha := (band_elim _ _ (band_elim _ _ h).1).2
              have hb := (band_elim _ _ h).2
              rw [ha, hb]
              rfl
      · have hguard : (c0 == "." || c0 == "..") = false := by
          simp [hc0ne, hc0]
        rw [hguard]
        simp only [Bool.false_and]
        rw [if_neg (by simp)]
        unfold ancestorIndexShape
        cases rest0 with
        | nil =>
          rw [if_neg ?nidx]
          case nidx =>
            intro h
            have hidx : isIndexBase c0 = true := (band_elim _ _ h).2
            have hhead := isIndexBase_head c0 hidx
            apply hds
            unfold needsDotSlash
            dsimp only
            cases hcd : c0.data with
            | nil => rw [hcd] at hhead; cases hhead
            | cons c cs =>
              rw [hcd] at hhead
              injection hhead with hci
              subst hci
              rfl
        | cons c1 rest1 =>
          rw [if_neg ?nall]
          case nall =>
            intro h
            have hall := (band_elim _ _ h).1
            rw [List.dropLast_cons₂, List.all_cons] at hall
            have := (band_elim _ _ hall).1
            rw [beq_iff_eq] at this
            exact hc0 this

lemma removeExt_beq_false (b : Bool) :
    (RemoveExtensions.asBool b == RemoveExtensions.asBool false) = !b := by
  cases b <;> rfl

lemma contains_default_not_empty (e : String)
    (h : DEFAULT_EXTENSIONS_TO_REMOVE.contains e = true) : e.isEmpty = false := by
  have hmem : e ∈ DEFAULT_EXTENSIONS_TO_REMOVE := by
    simpa [List.contains_eq_any_beq, List.any_eq_true] using h
  fin_cases hmem <;> rfl

lemma getLastD_withDotSlash (rel : List String) (hne : rel ≠ []) :
    (withDotSlash rel).getLastD "" = rel.getLastD "" := by
  unfold withDotSlash
  by_cases h : needsDotSlash rel = true
  · rw [if_pos h]
    exact getLastD_dotSlash rel hne
  · rw [if_neg h]

/-- The non-alias branch of the rewriter equals the amended-claim
characterisation, for targets free of `.` components (which `path.resolve`
never produces). -/
lemma computeNewSpecifier_nonalias_spec (newRef newTgt : Path) (orig : String)
    (hdot : "." ∉ newTgt) :
    computeNewSpecifier newRef newTgt orig false =
      specifierRewriteSpec newRef newTgt orig := by
  unfold computeNewSpecifier calculateRelativePath specifierRewriteSpec
  dsimp only
  rw [if_neg Bool.false_ne_true]
  by_cases hemp : (listRelative (dirname newRef) newTgt).isEmpty
  · rw [if_pos hemp, if_pos hemp]
  · rw [if_neg hemp, if_neg hemp]
    have hne : listRelative (dirname newRef) newTgt ≠ [] := by
      intro h
      rw [h] at hemp
      exact hemp rfl
    have hdotrel : "." ∉ listRelative (dirname newRef) newTgt := by
      intro hmem
      rcases mem_listRelative _ _ _ hmem with h | h
      · exact absurd h (by decide)
      · exact hdot h
    rw [removeExt_beq_false, Bool.not_not]
    rw [indexRegexGroup_withDotSlash _ hne hdotrel]
    rw [getLastD_withDotSlash _ hne]
    by_cases hgi : (wasIndexSimplifiedFn orig &&
        !(PRESERVE_EXTENSIONS.contains (extname orig))) = true
    · rw [if_pos hgi]
      by_cases hsh : ancestorIndexShape (listRelative (dirname newRef) newTgt) = true
      · have hcond : (wasIndexSimplifiedFn orig &&
            !(PRESERVE_EXTENSIONS.contains (extname orig)) &&
            ancestorIndexShape (listRelative (dirname newRef) newTgt)) = true := by
          simp only [Bool.and_eq_true] at hgi ⊢
          tauto
        rw [if_pos hsh, if_pos hcond]
      · have hcond : ¬((wasIndexSimplifiedFn orig &&
            !(PRESERVE_EXTENSIONS.contains (extname orig)) &&
            ancestorIndexShape (listRelative (dirname newRef) newTgt)) = true) := by
          intro hcontra
          apply hsh
          simp only [Bool.and_eq_true] at hcontra
          tauto
        rw [if_neg hsh, if_neg hcond]
        cases hkeep : PRESERVE_EXTENSIONS.contains (extname orig) with
        | true =>
          rw [hkeep] at hgi
          simp at hgi
        | false =>
          simp only [Bool.not_false, Bool.true_and]
          cases hct : DEFAULT_EXTENSIONS_TO_REMOVE.contains
              (extnameBase ((listRelative (dirname newRef) newTgt).getLastD "")) with
          | true =>
            have hempE : (extnameBase ((listRelative (dirname newRef)
                newTgt).getLastD "")).isEmpty = false :=
              contains_default_not_empty _ hct
            have hempE2 : ¬((extnameBase ((listRelative (dirname newRef)
                newTgt).getLastD "")).isEmpty = true) := by
              rw [hempE]
              exact Bool.false_ne_true
            rw [if_pos rfl, if_pos rfl, if_neg hempE2]
          | false =>
            rw [if_neg Bool.false_ne_true, if_neg Bool.false_ne_true]
    · have hcond : ¬((wasIndexSimplifiedFn orig &&
          !(PRESERVE_EXTENSIONS.contains (extname orig)) &&
          ancestorIndexShape (listRelative (dirname newRef) newTgt)) = true) := by
        intro hcontra
        apply hgi
        simp only [Bool.and_eq_true] at hcontra ⊢
        tauto
      rw [if_neg hgi, if_neg hcond]
      cases hkeep : PRESERVE_EXTENSIONS.contains (extname orig) with
      | true =>
        simp only [Bool.not_true, Bool.false_and]
        have hleft : ¬((([] : List String).contains
            (extnameBase ((listRelative (dirname newRef)
              newTgt).getLastD ""))) = true) := by
          intro h
          cases h
        rw [if_neg hleft, if_neg Bool.false_ne_true]
      | false =>
        simp only [Bool.not_false, Bool.true_and]
        cases hct : DEFAULT_EXTENSIONS_TO_REMOVE.contains
            (extnameBase ((listRelative (dirname newRef) newTgt).getLastD "")) with
        | true =>
          have hempE : (extnameBase ((listRelative (dirname newRef)
              newTgt).getLastD "")).isEmpty = false :=
            contains_default_not_empty _ hct
          have hempE2 : ¬((extnameBase ((listRelative (dirname newRef)
              newTgt).getLastD "")).isEmpty = true) := by
            rw [hempE]
            exact Bool.false_ne_true
          rw [if_pos rfl, if_pos rfl, if_neg hempE2]
        | false =>
          rw [if_neg Bool.false_ne_true, if_neg Bool.false_ne_true]

lemma processEdge_success (ops : List RenameOperation) (d : DeclarationToUpdate)
    (e : Edge) (s : String) (nt : Path)
    (hspec : e.specifier = some s)
    (hok : e.setFails = false)
    (htgt : findNewPath d.resolvedPath ops = some nt) :
    processEdge ops d (some e) =
      some { e with specifier := some (computeNewSpecifier
        ((findNewPath d.referencingFilePath ops).getD d.referencingFilePath) nt
        d.originalSpecifierText d.wasPathAlias) } := by
  unfold processEdge
  dsimp only
  rw [hspec]
  dsimp only
  rw [htgt]
  dsimp only
  rw [hok]
  rw [if_neg Bool.false_ne_true]

/-- C4 (amended): for a discovered declaration that does not use a path
alias, whose edge is live (present, carrying a specifier, and whose
`setModuleSpecifier` does not throw) and whose resolved target has a
rename operation, bulk rewriting sets its specifier to the amended
section 4.3 formula `specifierRewriteSpec`: the relative path from the
new owner's directory to the target's new path, collapsed to the index
directory only when the original was index-simplified, its extension is
outside the preserved set, and the relative path is pure `..` segments
before an index basename; otherwise with the final extension stripped
exactly when the original's extension is outside the preserved set and
the new basename's extension is a default source extension.  (The claim's
unconditional index simplification and unconditional stripping are
refuted by `nonalias_rewrite_counterexample`.) -/
theorem nonalias_rewrite_formula (proj : Project) (decls : List DeclarationToUpdate)
    (ops : List RenameOperation) (d : DeclarationToUpdate) (e : Edge) (s : String)
    (nt : Path) (hmem : d ∈ decls)
    (hpw : decls.Pairwise (fun a b => ¬(a.moduleIdx = b.moduleIdx ∧ a.edgeIdx = b.edgeIdx)))
    (halias : d.wasPathAlias = false)
    (hedge : getEdge proj d.moduleIdx d.edgeIdx = some e)
    (hspec : e.specifier = some s)
    (hok : e.setFails = false)
    (htgt : findNewPath d.resolvedPath ops = some nt)
    (hdot : "." ∉ nt) :
    getEdge (updateModuleSpecifiers proj decls ops).proj d.moduleIdx d.edgeIdx =
      some { e with specifier := some (specifierRewriteSpec
        ((findNewPath d.referencingFilePath ops).getD d.referencingFilePath) nt
        d.originalSpecifierText) } := by
  have hpoint := foldl_updateOne_pointwise ops decls ⟨proj, 0, 0⟩ d hmem hpw
  unfold updateModuleSpecifiers
  rw [hpoint]
  dsimp only at hpoint ⊢
  rw [hedge, processEdge_success ops d e s nt hspec hok htgt, halias,
    computeNewSpecifier_nonalias_spec _ _ _ hdot]

/-- Counterexample for C4 as stated: an edge importing `"./dir"` whose
directory moves becomes the explicit `"./dir/index"` (index
simplification is not applied, though the original lacked an extension),
and an edge whose target gains the non-preserved extension `.mts` keeps
that extension (it is outside the default strip list). -/
theorem nonalias_rewrite_counterexample :
    computeNewSpecifier ["dst", "main.ts"] ["dst", "dir", "index.ts"] "./dir" false =
        "./dir/index" ∧
    computeNewSpecifier ["a", "main.ts"] ["a", "foo.mts"] "./foo" false =
        "./foo.mts" :=
  ⟨by decide, by decide⟩

/-- A `./utils` import whose target moves into `lib/helper-utils.ts` is
rewritten to `./lib/helper-utils` by the bulk rewriter, matching the
amended formula. -/
theorem nonalias_rewrite_formula_witness :
    getEdge (updateModuleSpecifiers
        ⟨[⟨["src", "main.ts"],
           [⟨0, 10, some "./utils", some ["src", "utils.ts"], false⟩], false⟩], []⟩
        [⟨0, 0, ["src", "utils.ts"], ["src", "main.ts"], "./utils", false⟩]
        [⟨1, ["src", "utils.ts"], ["src", "lib", "helper-utils.ts"]⟩]).proj 0 0 =
      some ⟨0, 10, some "./lib/helper-utils", some ["src", "utils.ts"], false⟩ := by
  have h := nonalias_rewrite_formula
    ⟨[⟨["src", "main.ts"],
       [⟨0, 10, some "./utils", some ["src", "utils.ts"], false⟩], false⟩], []⟩
    [⟨0, 0, ["src", "utils.ts"], ["src", "main.ts"], "./utils", false⟩]
    [⟨1, ["src", "utils.ts"], ["src", "lib", "helper-utils.ts"]⟩]
    ⟨0, 0, ["src", "utils.ts"], ["src", "main.ts"], "./utils", false⟩
    ⟨0, 10, some "./utils", some ["src", "utils.ts"], false⟩
    "./utils" ["src", "lib", "helper-utils.ts"]
    (by decide) (by decide) rfl (by decide) rfl rfl (by decide) (by decide)
  rw [h]
  decide

/- ------------------------------------------------------------------ -/
/- C7: discovery output — dedup and soundness, but no sorting          -/
/- ------------------------------------------------------------------ -/

/-- The dedup key the discovery loop computes for a declaration handle:
the owning module's path and the node's source span. -/
def declKey (proj : Project) (dd : DeclarationToUpdate) : Option (Path × Nat × Nat) :=
  proj.modules[dd.moduleIdx]?.bind (fun m =>
    (m.edges[dd.edgeIdx]?).map (fun e => (m.path, e.pos, e.stop)))

/-- What discovery guarantees about each emitted entry: the handle is
live, the captured fields match the edge, the specifier is non-empty, and
the edge statically resolves to the `oldPath` of some operation of the
batch. -/
def soundDecl (proj : Project) (ops : List RenameOperation)
    (dd : DeclarationToUpdate) : Prop :=
  ∃ m e, proj.modules[dd.moduleIdx]? = some m ∧ m.edges[dd.edgeIdx]? = some e ∧
    dd.referencingFilePath = m.path ∧
    e.specifier = some dd.originalSpecifierText ∧
    dd.originalSpecifierText ≠ "" ∧
    e.resolvedTarget = some dd.resolvedPath ∧
    ∃ op, op ∈ ops ∧ op.oldPath = dd.resolvedPath

/-- Loop invariant of the discovery fold: every accumulated entry is
sound and its key is registered in `seen`, and the accumulated keys are
pairwise distinct. -/
def discInv (proj : Project) (ops : List RenameOperation) (st : DiscoveryState) : Prop :=
  (∀ dd ∈ st.acc, soundDecl proj ops dd ∧
    ∃ k, declKey proj dd = some k ∧ k ∈ st.seen) ∧
  st.acc.Pairwise (fun a b => declKey proj a ≠ declKey proj b)

lemma contains_iff_mem_gen {α : Type} [BEq α] [LawfulBEq α] (l : List α) (a : α) :
    l.contains a = true ↔ a ∈ l := by
  simp [List.contains_eq_any_beq, List.any_eq_true]

lemma collectDeclaration_inv (proj : Project) (op : RenameOperation)
    (ops : List RenameOperation) (st : DiscoveryState) (h : Nat × Nat)
    (hop : op ∈ ops) (hinv : discInv proj ops st) :
    discInv proj ops (collectDeclaration proj op st h) := by
  unfold collectDeclaration
  cases hm : proj.modules[h.1]? with
  | none => exact hinv
  | some m =>
    dsimp only
    cases he : m.edges[h.2]? with
    | none => exact hinv
    | some e =>
      dsimp only
      by_cases hseen : st.seen.contains (m.path, e.pos, e.stop) = true
      · rw [if_pos hseen]
        exact hinv
      · rw [if_neg hseen]
        cases hs : e.specifier with
        | none => exact hinv
        | some s =>
          dsimp only
          by_cases hempty : s = ""
          · rw [if_pos hempty]
            exact hinv
          · rw [if_neg hempty]
            by_cases hrt : (e.resolvedTarget == some op.oldPath) = true
            · rw [if_pos hrt]
              have hkey : declKey proj
                  ⟨h.1, h.2, op.oldPath, m.path, s, checkIsPathAlias s proj.tsConfigKeys⟩ =
                  some (m.path, e.pos, e.stop) := by
                unfold declKey
                dsimp only
                rw [hm, Option.some_bind, he]
                rfl
              have hnot : (m.path, e.pos, e.stop) ∉ st.seen := by
                intro hmem
                exact hseen ((contains_iff_mem_gen _ _).mpr hmem)
              constructor
              · intro dd hdd
                rcases List.mem_append.mp hdd with hold | hnew
                · obtain ⟨hsound, k, hk, hkseen⟩ := hinv.1 dd hold
                  exact ⟨hsound, k, hk, List.mem_cons_of_mem _ hkseen⟩
                · rw [List.mem_singleton.mp hnew]
                  refine ⟨⟨m, e, hm, he, rfl, hs, hempty, eq_of_beq hrt,
                    op, hop, rfl⟩, (m.path, e.pos, e.stop), hkey, ?_⟩
                  exact List.mem_cons_self _ _
              · rw [List.pairwise_append]
                refine ⟨hinv.2, List.pairwise_singleton _ _, ?_⟩
                intro a ha b hb
                rw [List.mem_singleton.mp hb]
                obtain ⟨_, k, hk, hkseen⟩ := hinv.1 a ha
                rw [hk, hkey]
                intro hcontra
                apply hnot
                rw [← Option.some_inj.mp hcontra]
                exact hkseen
            · rw [if_neg hrt]
              exact hinv

lemma foldl_collect_inv (proj : Project) (op : RenameOperation)
    (ops : List RenameOperation) (hs : List (Nat × Nat)) (st : DiscoveryState)
    (hop : op ∈ ops) (hinv : discInv proj ops st) :
    discInv proj ops (hs.foldl (collectDeclaration proj op) st) := by
  induction hs generalizing st with
  | nil => exact hinv
  | cons hd tl ih =>
    rw [List.foldl_cons]
    exact ih _ (collectDeclaration_inv proj op ops st hd hop hinv)

lemma foldl_ops_inv (proj : Project) (ops1 ops : List RenameOperation)
    (st : DiscoveryState)
    (hsub : ∀ op ∈ ops1, op ∈ ops) (hinv : discInv proj ops st) :
    discInv proj ops (ops1.foldl (fun st op =>
      (findDeclarationsForRenameOperation proj op).foldl (collectDeclaration proj op) st)
      st) := by
  induction ops1 generalizing st with
  | nil => exact hinv
  | cons hd tl ih =>
    rw [List.foldl_cons]
    exact ih _ (fun op h2 => hsub op (List.mem_cons_of_mem _ h2))
      (foldl_collect_inv proj hd ops _ st (hsub hd (List.mem_cons_self hd tl)) hinv)

/-- C7 (amended): for every rename batch, discovery returns at most one
entry per dedup key (owning module path, node start, node end) — the
accumulated keys are pairwise distinct — and every returned entry is
live and sound: its captured fields match the underlying edge, its
specifier is non-empty, and the edge statically resolves to the
`oldPath` of some operation of the batch.  The claim's final part — that
the collection is reported sorted by owning-module path then source
position — is refuted by `findAllDeclarations_unsorted_counterexample`:
the output is in operation order then discovery order, never sorted. -/
theorem findAllDeclarations_dedup_sound (proj : Project) (ops : List RenameOperation) :
    (∀ dd ∈ findAllDeclarationsToUpdate proj ops, soundDecl proj ops dd) ∧
    (findAllDeclarationsToUpdate proj ops).Pairwise
      (fun a b => declKey proj a ≠ declKey proj b) := by
  have hinv : discInv proj ops
      ((ops.foldl (fun st op =>
        (findDeclarationsForRenameOperation proj op).foldl (collectDeclaration proj op) st)
        ⟨[], []⟩)) := by
    apply foldl_ops_inv proj ops ops ⟨[], []⟩ (fun op h => h)
    constructor
    · intro dd hdd
      cases hdd
    · exact List.Pairwise.nil
  exact ⟨fun dd hdd => (hinv.1 dd hdd).1, hinv.2⟩

/-- A joined textual form of a component path, used to state the sort
order the claim asserts. -/
def pathKey (p : Path) : String := String.intercalate "/" p

/-- Lexicographic comparison of two character lists (code-point order,
the order `localeCompare` induces on ASCII path strings). -/
def charsLe : List Char → List Char → Bool
  | [], _ => true
  | _ :: _, [] => false
  | x :: xs, y :: ys => if x = y then charsLe xs ys else decide (x.toNat < y.toNat)

/-- Path order asserted by the claim: code-point order of the joined
path text. -/
def pathTextLe (p q : Path) : Bool := charsLe (pathKey p).data (pathKey q).data

/-- Counterexample for C7 as stated: with operations listed target-2
before target-1, discovery emits the `z.ts` declaration before the
`a.ts` one — the output follows operation order, not owning-module-path
order. -/
theorem findAllDeclarations_unsorted_counterexample :
    ¬ (findAllDeclarationsToUpdate
        ⟨[⟨["z.ts"], [⟨0, 5, some "./t2", some ["t2.ts"], false⟩], false⟩,
          ⟨["a.ts"], [⟨0, 5, some "./t1", some ["t1.ts"], false⟩], false⟩,
          ⟨["t1.ts"], [], false⟩,
          ⟨["t2.ts"], [], false⟩], []⟩
        [⟨3, ["t2.ts"], ["n2.ts"]⟩, ⟨2, ["t1.ts"], ["n1.ts"]⟩]).Pairwise
      (fun a b => pathTextLe a.referencingFilePath b.referencingFilePath = true) := by
  decide

/-- The `z.ts` entry emitted by the counterexample batch is sound: its
edge is live and resolves to the first operation's old path. -/
theorem findAllDeclarations_dedup_sound_witness :
    soundDecl
      ⟨[⟨["z.ts"], [⟨0, 5, some "./t2", some ["t2.ts"], false⟩], false⟩,
        ⟨["a.ts"], [⟨0, 5, some "./t1", some ["t1.ts"], false⟩], false⟩,
        ⟨["t1.ts"], [], false⟩,
        ⟨["t2.ts"], [], false⟩], []⟩
      [⟨3, ["t2.ts"], ["n2.ts"]⟩, ⟨2, ["t1.ts"], ["n1.ts"]⟩]
      ⟨0, 0, ["t2.ts"], ["z.ts"], "./t2", false⟩ := by
  have h := findAllDeclarations_dedup_sound
    ⟨[⟨["z.ts"], [⟨0, 5, some "./t2", some ["t2.ts"], false⟩], false⟩,
      ⟨["a.ts"], [⟨0, 5, some "./t1", some ["t1.ts"], false⟩], false⟩,
      ⟨["t1.ts"], [], false⟩,
      ⟨["t2.ts"], [], false⟩], []⟩
    [⟨3, ["t2.ts"], ["n2.ts"]⟩, ⟨2, ["t1.ts"], ["n1.ts"]⟩]
  exact h.1 ⟨0, 0, ["t2.ts"], ["z.ts"], "./t2", false⟩ (by decide)

end TsMorph
